import Mathlib

/-!
Verification development for the RAMScanner barcode classification core
(`src/main.py`).  The Python source is shallowly embedded: pure helper
functions become Lean functions on `String`/`List Char`, the mutable
application state (version registry, scan results, per-variant counts)
becomes explicit state passing, and the concrete regular expressions of
the source are executed by a small backtracking matcher specialised to
the constructs they use (literals, character classes, greedy bounded
repetition, optional groups, word boundaries).  All text handling models
Python string semantics restricted to ASCII, which covers every constant
and every example in the specification.
-/

namespace RAMScanner

/-! ## Python string primitives (ASCII model) -/

/-- Characters treated as whitespace by Python `str.strip()` / `str.split()`. -/
def isPySpace (c : Char) : Bool :=
  c = ' ' || c = '\t' || c = '\n' || c = '\r' || c = '\x0b' || c = '\x0c'

/-- ASCII lower-to-upper table used to model Python `str.upper()`. -/
def lowerUpperPairs : List (Char × Char) :=
  [('a', 'A'), ('b', 'B'), ('c', 'C'), ('d', 'D'), ('e', 'E'), ('f', 'F'),
   ('g', 'G'), ('h', 'H'), ('i', 'I'), ('j', 'J'), ('k', 'K'), ('l', 'L'),
   ('m', 'M'), ('n', 'N'), ('o', 'O'), ('p', 'P'), ('q', 'Q'), ('r', 'R'),
   ('s', 'S'), ('t', 'T'), ('u', 'U'), ('v', 'V'), ('w', 'W'), ('x', 'X'),
   ('y', 'Y'), ('z', 'Z')]

/-- ASCII upper-to-lower table used to model Python `str.lower()`. -/
def upperLowerPairs : List (Char × Char) :=
  lowerUpperPairs.map (fun p => (p.2, p.1))

/-- Model of `str.upper()` on a single ASCII character. -/
def chUp (c : Char) : Char := (lowerUpperPairs.lookup c).getD c

/-- Model of `str.lower()` on a single ASCII character. -/
def chDown (c : Char) : Char := (upperLowerPairs.lookup c).getD c

/-- Model of Python `str.upper()`. -/
def pyUpper (s : String) : String := String.mk (s.data.map chUp)

/-- Model of Python `str.lower()`. -/
def pyLower (s : String) : String := String.mk (s.data.map chDown)

/-- Model of Python `str.strip()` (drop outer whitespace). -/
def pyStripList (l : List Char) : List Char :=
  ((l.dropWhile isPySpace).reverse.dropWhile isPySpace).reverse

/-- Model of Python `str.strip()` on strings. -/
def pyStrip (s : String) : String := String.mk (pyStripList s.data)

/-- Helper for `pySplitList`: accumulates the current (reversed) word. -/
def pySplitAux : List Char → List Char → List (List Char)
  | [], acc => if acc = [] then [] else [acc.reverse]
  | c :: t, acc =>
    if isPySpace c then
      if acc = [] then pySplitAux t [] else acc.reverse :: pySplitAux t []
    else pySplitAux t (c :: acc)

/-- Model of Python `str.split()` (split on whitespace runs, no empties). -/
def pySplitList (l : List Char) : List (List Char) := pySplitAux l []

/-- Model of Python `str.split()` on strings. -/
def pySplit (s : String) : List String := (pySplitList s.data).map String.mk

/-- Python truthiness of an optional integer (`None` and `0` are falsy). -/
def truthyOI : Option Int → Bool
  | none => false
  | some n => n != 0

/-- Python truthiness of an optional string (`None` and `""` are falsy). -/
def truthyOS : Option String → Bool
  | none => false
  | some s => s != ""

/-- Python substring containment (`needle in hay`). -/
def listContainsSub (hay needle : List Char) : Bool :=
  match hay with
  | [] => needle.isEmpty
  | _ :: t => needle.isPrefixOf hay || listContainsSub t needle

/-- Python substring containment on strings. -/
def strContainsSub (hay needle : String) : Bool :=
  listContainsSub hay.data needle.data

/-- Numeric value of a string of decimal digits (Python `int` on digits). -/
def natOfDigits (l : List Char) : Nat :=
  l.foldl (fun n c => n * 10 + (c.toNat - '0'.toNat)) 0

/-- Python `round(a / b)` for integers with `b > 0`: rounds the exact
rational `a / b` to the nearest integer, ties to even (banker's rounding,
exact for every quotient reachable in the source). -/
def pyRoundDiv (a b : Int) : Int :=
  let q := a.fdiv b
  let r := a - q * b
  if 2 * r < b then q
  else if 2 * r > b then q + 1
  else if q % 2 = 0 then q else q + 1

/-! ## Backtracking matcher for the source's concrete regular expressions

The source uses `re.search` with patterns built from literals, character
classes, greedy counted repetition of a single-character class, one
optional single-character group, capturing groups and `\b` word
boundaries.  `RItem` is exactly that fragment; `matchItems` implements
leftmost search with Python's greedy-then-backtrack semantics. -/

/-- One element of a regular expression in the fragment used by the source.
Quantifiers apply to a single-character class `p`; `hi = none` means
unbounded.  Group indices: the n-th opening parenthesis of the pattern. -/
inductive RItem where
  /-- literal character, matched exactly -/
  | lit (c : Char)
  /-- literal character, case-insensitive (`c` given lowercase) -/
  | litCI (c : Char)
  /-- `\b` word boundary -/
  | wb
  /-- greedy `p{lo,hi}` (`p*`, `p+`, `p?`, `p{3,5}`, ...) -/
  | rep (p : Char → Bool) (lo : Nat) (hi : Option Nat)
  /-- capturing group around a greedy `p{lo,hi}` -/
  | grpRep (g : Nat) (p : Char → Bool) (lo : Nat) (hi : Option Nat)
  /-- optional capturing group around a case-insensitive literal (`(c)?`) -/
  | grpOptLitCI (g : Nat) (c : Char)

/-- Captured groups: group index to captured text; the most recent capture
of a group shadows older ones. -/
def Caps := List (Nat × String)

/-- Read a captured group (Python `m.group(g)`; `none` when the group did
not participate in the match). -/
def getCap (caps : Caps) (g : Nat) : Option String :=
  match caps.find? (fun p => p.1 = g) with
  | some p => some p.2
  | none => none

/-- Record a capture. -/
def setCap (caps : Caps) (g : Nat) (v : String) : Caps := (g, v) :: caps

/-- Python `\w` (ASCII model): letters, digits, underscore. -/
def isWordChar (c : Char) : Bool := c.isAlphanum || c = '_'

/-- Is there a `\b` boundary between `prev` (the character before the
current position, `none` at the start) and the rest of the input? -/
def atBoundary (prev : Option Char) (rest : List Char) : Bool :=
  (match prev with | none => false | some c => isWordChar c)
    != (match rest with | [] => false | c :: _ => isWordChar c)

/-- Length of the longest run of characters satisfying `p` at the head. -/
def leadRun (p : Char → Bool) : List Char → Nat
  | [] => 0
  | c :: t => if p c then leadRun p t + 1 else 0

/-- Longest permitted repetition count at the head: the leading run,
capped by the quantifier's upper bound. -/
def runBound (p : Char → Bool) (hi : Option Nat) (l : List Char) : Nat :=
  match hi with
  | none => leadRun p l
  | some h => min (leadRun p l) h

/-- Greedy backtracking over a repetition count: try `j` first, then
`j-1`, ..., down to `lo`; the first success wins. -/
def tryFrom (k : Nat → Option Caps) (lo : Nat) : Nat → Option Caps
  | 0 => if lo = 0 then k 0 else none
  | j + 1 =>
    if j + 1 < lo then none
    else
      match k (j + 1) with
      | some r => some r
      | none => tryFrom k lo j

/-- The character preceding the position reached after consuming
`consumed`, given the character `prev` preceding the start. -/
def prevAfter (prev : Option Char) (consumed : List Char) : Option Char :=
  match consumed.getLast? with
  | some c => some c
  | none => prev

/-- Match a sequence of items at the current position (`prev` = preceding
character, `rest` = remaining input), returning the captures on success.
Greedy quantifiers backtrack; this mirrors Python `re` on this fragment. -/
def matchItems : List RItem → Option Char → List Char → Caps → Option Caps
  | [], _, _, caps => some caps
  | RItem.lit c :: t, _, rest, caps =>
    match rest with
    | [] => none
    | c2 :: r => if c2 = c then matchItems t (some c2) r caps else none
  | RItem.litCI c :: t, _, rest, caps =>
    match rest with
    | [] => none
    | c2 :: r => if chDown c2 = c then matchItems t (some c2) r caps else none
  | RItem.wb :: t, prev, rest, caps =>
    if atBoundary prev rest then matchItems t prev rest caps else none
  | RItem.rep p lo hi :: t, prev, rest, caps =>
    tryFrom
      (fun j => matchItems t (prevAfter prev (rest.take j)) (rest.drop j) caps)
      lo (runBound p hi rest)
  | RItem.grpRep g p lo hi :: t, prev, rest, caps =>
    tryFrom
      (fun j =>
        matchItems t (prevAfter prev (rest.take j)) (rest.drop j)
          (setCap caps g (String.mk (rest.take j))))
      lo (runBound p hi rest)
  | RItem.grpOptLitCI g c :: t, prev, rest, caps =>
    match rest with
    | [] => matchItems t prev rest caps
    | c2 :: r =>
      if chDown c2 = c then
        match matchItems t (some c2) r (setCap caps g (String.mk [c2])) with
        | some res => some res
        | none => matchItems t prev rest caps
      else matchItems t prev rest caps

/-- Leftmost search: try a match at every start position, earliest wins
(Python `re.search`). -/
def searchFrom (items : List RItem) (prev : Option Char) :
    List Char → Option Caps
  | [] => matchItems items prev [] []
  | c :: r =>
    match matchItems items prev (c :: r) [] with
    | some caps => some caps
    | none => searchFrom items (some c) r

/-- Python `re.search(pattern, s)` for a pattern in our fragment. -/
def reSearch (items : List RItem) (s : String) : Option Caps :=
  searchFrom items none s.data

/-! ## Tables and patterns from the source -/

/-- `MANUFACTURER_HINTS`: keyword to canonical manufacturer name, in the
source's insertion order (first substring hit wins). -/
def MANUFACTURER_HINTS : List (String × String) :=
  [("samsung", "Samsung"), ("hynix", "SK Hynix"), ("skhynix", "SK Hynix"),
   ("micron", "Micron"), ("crucial", "Crucial"), ("kingston", "Kingston"),
   ("gskill", "G.SKILL"), ("g.skill", "G.SKILL"), ("adata", "ADATA"),
   ("corsair", "Corsair"), ("patriot", "Patriot"), ("teamgroup", "TeamGroup"),
   ("lexar", "Lexar"), ("ramaxel", "Ramaxel"), ("nanya", "Nanya")]

/-- The pattern `ddr\s*<d>` from `TYPE_PATTERNS`. -/
def ddrPattern (d : Char) : List RItem :=
  [RItem.lit 'd', RItem.lit 'd', RItem.lit 'r', RItem.rep isPySpace 0 none,
   RItem.lit d]

/-- The pattern `pc<d>` from `TYPE_PATTERNS`. -/
def pcPattern (d : Char) : List RItem :=
  [RItem.lit 'p', RItem.lit 'c', RItem.lit d]

/-- `TYPE_PATTERNS`: pattern to DDR type, in the source's insertion order. -/
def TYPE_PATTERNS : List (List RItem × String) :=
  [(ddrPattern '5', "DDR5"), (ddrPattern '4', "DDR4"),
   (ddrPattern '3', "DDR3"), (ddrPattern '2', "DDR2"),
   (pcPattern '5', "DDR5"), (pcPattern '4', "DDR4"),
   (pcPattern '3', "DDR3"), (pcPattern '2', "DDR2")]

/-- `SIZE_PATTERNS`: `\b(\d+)\s*gb\b`, `\b(\d+)\s*g\b`,
`\b(\d+)\s*x?\s*\d+gb\b` (group 1 captures the size). -/
def SIZE_PATTERNS : List (List RItem) :=
  [[RItem.wb, RItem.grpRep 1 Char.isDigit 1 none, RItem.rep isPySpace 0 none,
    RItem.lit 'g', RItem.lit 'b', RItem.wb],
   [RItem.wb, RItem.grpRep 1 Char.isDigit 1 none, RItem.rep isPySpace 0 none,
    RItem.lit 'g', RItem.wb],
   [RItem.wb, RItem.grpRep 1 Char.isDigit 1 none, RItem.rep isPySpace 0 none,
    RItem.rep (fun c => c = 'x') 0 (some 1), RItem.rep isPySpace 0 none,
    RItem.rep Char.isDigit 1 none, RItem.lit 'g', RItem.lit 'b', RItem.wb]]

/-- `SPEED_PATTERNS`: `\b(\d{3,5})\s*mt\/?s\b`, `\b(\d{3,5})\s*mhz\b`. -/
def SPEED_PATTERNS : List (List RItem) :=
  [[RItem.wb, RItem.grpRep 1 Char.isDigit 3 (some 5), RItem.rep isPySpace 0 none,
    RItem.lit 'm', RItem.lit 't', RItem.rep (fun c => c = '/') 0 (some 1),
    RItem.lit 's', RItem.wb],
   [RItem.wb, RItem.grpRep 1 Char.isDigit 3 (some 5), RItem.rep isPySpace 0 none,
    RItem.lit 'm', RItem.lit 'h', RItem.lit 'z', RItem.wb]]

/-- `MODULE_CLASS_RE`: `pc(?P<gen>\d+)(?P<lv>l)?[- ]?(?P<rating>\d{3,6})`
`(?P<suffix>[a-zA-Z]*)`, case-insensitive.  Group numbers: gen = 1,
lv = 2, rating = 3, suffix = 4. -/
def MODULE_CLASS_RE : List RItem :=
  [RItem.litCI 'p', RItem.litCI 'c', RItem.grpRep 1 Char.isDigit 1 none,
   RItem.grpOptLitCI 2 'l', RItem.rep (fun c => c = '-' || c = ' ') 0 (some 1),
   RItem.grpRep 3 Char.isDigit 3 (some 6), RItem.grpRep 4 Char.isAlpha 0 none]

/-- `COMMON_MB_TO_MTS`: PC rating (MB/s) to MT/s speed, in source order. -/
def COMMON_MB_TO_MTS : List (Int × Int) :=
  [(6400, 800), (8500, 1066), (8533, 1066), (10600, 1333), (10660, 1333),
   (10700, 1333), (12800, 1600), (14900, 1866), (15000, 1866), (16000, 2000),
   (17000, 2133), (17900, 2250), (19200, 2400), (21300, 2666), (22400, 2800),
   (23000, 2888), (24000, 3000), (25600, 3200), (28800, 3600), (32000, 4000)]

/-- Insert a binding only when the key is absent (Python `dict.setdefault`). -/
def setdefault (d : List (Int × Int)) (k v : Int) : List (Int × Int) :=
  if (d.lookup k).isSome then d else d ++ [(k, v)]

/-- `SPEED_TO_MB`: inverse of `COMMON_MB_TO_MTS`, built with `setdefault`
while iterating the forward table in order (first bandwidth wins on
duplicate speeds). -/
def SPEED_TO_MB : List (Int × Int) :=
  COMMON_MB_TO_MTS.foldl (fun d p => setdefault d p.2 p.1) []

/-! ## Module-class codec -/

/-- Strip characters other than `A`-`Z` and `0`-`9`
(`re.sub(r"[^A-Z0-9]", "", m)`). -/
def keepUpperDigit (l : List Char) : List Char :=
  l.filter (fun c => ('A' ≤ c && c ≤ 'Z') || c.isDigit)

/-- `synth_module_class(mem_type, speed_mts)`: build a `PCx-NNNNN` class
string from a DDR type and speed (`manual_kind` is unused by the source
body and omitted).  Direct translation of `synth_module_class`. -/
def synth_module_class (mem_type : Option String) (speed_mts : Option Int) :
    Option String :=
  if !truthyOS mem_type || !truthyOI speed_mts then none
  else
    let speed := speed_mts.getD 0
    let m0 := (pyUpper (mem_type.getD "")).data.filter (fun c => c ≠ ' ')
    let m := keepUpperDigit m0
    if !(("DDR" : String).data.isPrefixOf m) || m.length < 4
        || !(m.getD 3 ' ').isDigit then none
    else
      let gen := m.getD 3 ' '
      let mb :=
        match SPEED_TO_MB.lookup speed with
        | some v => v
        | none => pyRoundDiv (speed * 8) 100 * 100
      some ("PC" ++ String.mk [gen] ++ "-" ++ toString mb)

/-- `extract_module_class(text)`: search `MODULE_CLASS_RE` and rebuild a
normalized `PC<gen><LV>-<rating><SUFFIX>` string. -/
def extract_module_class (text : String) : Option String :=
  match reSearch MODULE_CLASS_RE text with
  | none => none
  | some caps =>
    let gen := (getCap caps 1).getD ""
    let lv := pyUpper ((getCap caps 2).getD "")
    let rating := (getCap caps 3).getD ""
    let suffix := pyUpper ((getCap caps 4).getD "")
    some ("PC" ++ gen ++ lv ++ "-" ++ rating ++ suffix)

/-- `parse_module_class(module_class)`: decode a module-class string into
(memory type, speed in MT/s, ECC hint). -/
def parse_module_class (module_class : String) :
    Option String × Option Int × Option Bool :=
  let s := pyUpper (pyStrip module_class)
  match reSearch MODULE_CLASS_RE s with
  | none => (none, none, none)
  | some caps =>
    let gen := (getCap caps 1).getD ""
    let rating := (getCap caps 3).getD ""
    let suffix := pyUpper ((getCap caps 4).getD "")
    let mem_type :=
      ([("2", "DDR2"), ("3", "DDR3"), ("4", "DDR4"), ("5", "DDR5")] :
        List (String × String)).lookup gen
    let rating_int : Int := (natOfDigits rating.data : Int)
    let speed : Option Int :=
      match COMMON_MB_TO_MTS.lookup rating_int with
      | some v => some v
      | none =>
        if rating_int < 4000 then some rating_int
        else some (max 1 (pyRoundDiv rating_int 8))
    let ecc : Option Bool :=
      if strContainsSub suffix "E" || strContainsSub suffix "Q" then some true
      else none
    (mem_type, speed, ecc)

/-! ## Mapping store -/

/-- A user mapping rule (`Mapping` dataclass).  Integer fields are `Int`
(Python ints), optional fields are `Option`. -/
structure Mapping where
  pattern : String
  size_gb : Option Int
  speed_mts : Option Int
  mem_type : Option String
  manufacturer : Option String
  module_class : Option String := none
  ecc : Option Bool := none
  regex : Bool := false
deriving Repr, DecidableEq

/-- `Mapping.matches(code)`.  Regex matching of arbitrary user patterns is
delegated to Python's `re` engine, modelled by the abstract parameter
`rs`; an invalid pattern is absorbed into `rs` returning `false` (the
source catches `re.error` and returns `False`). -/
def Mapping.matchesCode (rs : String → String → Bool) (m : Mapping)
    (code : String) : Bool :=
  if m.regex then rs m.pattern code else m.pattern == code

/-- `MappingStore.find(code)`: scan non-regex mappings first (first match
in list order wins), then regex mappings in list order. -/
def findMapping (rs : String → String → Bool) (mappings : List Mapping)
    (code : String) : Option Mapping :=
  match mappings.find? (fun m => !m.regex && m.matchesCode rs code) with
  | some m => some m
  | none => mappings.find? (fun m => m.regex && m.matchesCode rs code)

/-- Python `del lst[idx]` domain: valid iff `-len ≤ idx < len`, with
negative indices counting from the end. -/
def pyDelIdx (l : List Mapping) (idx : Int) : Option (List Mapping) :=
  if 0 ≤ idx ∧ idx < l.length then some (l.eraseIdx idx.toNat)
  else if -(l.length : Int) ≤ idx ∧ idx < 0 then
    some (l.eraseIdx (l.length - (-idx).toNat))
  else none

/-- `MappingStore.remove_index(idx)`: `del self.mappings[idx]` inside
`try/except pass` — an index Python rejects leaves the list unchanged. -/
def remove_index (l : List Mapping) (idx : Int) : List Mapping :=
  match pyDelIdx l idx with
  | some l2 => l2
  | none => l

/-! ## Barcode classification (`parse_barcode`) -/

/-- The seven components returned by `parse_barcode`. -/
structure ParseOut where
  size_gb : Option Int
  speed_mts : Option Int
  mem_type : Option String
  manufacturer : Option String
  module_class : Option String
  ecc : Option Bool
  parsed_ok : Bool
deriving Repr, DecidableEq

/-- First size pattern hit: group 1 as an integer (`SIZE_PATTERNS` loop). -/
def firstSizeHit (lower : String) : Option Int :=
  (SIZE_PATTERNS.firstM (fun pat => reSearch pat lower)).bind
    (fun caps => (getCap caps 1).map (fun d => (natOfDigits d.data : Int)))

/-- First type pattern hit (`TYPE_PATTERNS` loop). -/
def firstTypeHit (lower : String) : Option String :=
  (TYPE_PATTERNS.find? (fun p => (reSearch p.1 lower).isSome)).map Prod.snd

/-- First speed pattern hit: group 1 as an integer (`SPEED_PATTERNS` loop). -/
def firstSpeedHit (lower : String) : Option Int :=
  (SPEED_PATTERNS.firstM (fun pat => reSearch pat lower)).bind
    (fun caps => (getCap caps 1).map (fun d => (natOfDigits d.data : Int)))

/-- First manufacturer keyword contained in the text
(`MANUFACTURER_HINTS` loop). -/
def firstMfrHit (lower : String) : Option String :=
  (MANUFACTURER_HINTS.find? (fun p => strContainsSub lower p.1)).map Prod.snd

/-- `parse_barcode(code, store)`: mapping lookup first; with a mapping,
its stored fields are used and a stored module class backfills the
Python-falsy fields; with no mapping, the heuristic cascade runs.
`parsed_ok` is Python `all([...])` over the four main fields. -/
def parse_barcode (rs : String → String → Bool) (mappings : List Mapping)
    (code : String) : ParseOut :=
  let code_clean := pyStrip code
  match findMapping rs mappings code_clean with
  | some m =>
    let size_gb := m.size_gb
    let speed0 := m.speed_mts
    let mtype0 := m.mem_type
    let manufacturer := m.manufacturer
    let module_class := m.module_class
    let ecc0 := m.ecc
    let merged :=
      if truthyOS module_class then
        let mc := parse_module_class (module_class.getD "")
        (if truthyOS mc.1 && !truthyOS mtype0 then mc.1 else mtype0,
         if truthyOI mc.2.1 && !truthyOI speed0 then mc.2.1 else speed0,
         if mc.2.2.isSome && ecc0.isNone then mc.2.2 else ecc0)
      else (mtype0, speed0, ecc0)
    { size_gb := size_gb, speed_mts := merged.2.1, mem_type := merged.1,
      manufacturer := manufacturer, module_class := module_class,
      ecc := merged.2.2,
      parsed_ok := truthyOI size_gb && truthyOI merged.2.1
        && truthyOS merged.1 && truthyOS manufacturer }
  | none =>
    let lower := pyLower code_clean
    let size_gb := firstSizeHit lower
    let mtype0 := firstTypeHit lower
    let speed0 := firstSpeedHit lower
    let module_class := extract_module_class lower
    let merged :=
      match module_class with
      | some mcs =>
        let mc := parse_module_class mcs
        (if truthyOS mc.1 && !truthyOS mtype0 then mc.1 else mtype0,
         if truthyOI mc.2.1 && !truthyOI speed0 then mc.2.1 else speed0,
         if mc.2.2.isSome then mc.2.2 else none)
      | none => (mtype0, speed0, (none : Option Bool))
    let manufacturer := firstMfrHit lower
    { size_gb := size_gb, speed_mts := merged.2.1, mem_type := merged.1,
      manufacturer := manufacturer, module_class := module_class,
      ecc := merged.2.2,
      parsed_ok := truthyOI size_gb && truthyOI merged.2.1
        && truthyOS merged.1 && truthyOS manufacturer }

/-! ## Canonicalizer (`App._clean_scanned_code`) -/

/-- Exactly two ASCII uppercase letters (`re.fullmatch(r"[A-Z]{2}", t)`). -/
def isTwoUpper (t : String) : Bool :=
  match t.data with
  | [a, b] => ('A' ≤ a && a ≤ 'Z') && ('A' ≤ b && b ≤ 'Z')
  | _ => false

/-- Python `str.isdigit()` (ASCII model): nonempty and all digits. -/
def pyIsDigit (t : String) : Bool :=
  !t.data.isEmpty && t.data.all Char.isDigit

/-- `App._clean_scanned_code(raw)`: the canonical barcode key. -/
def clean_scanned_code (raw : String) : String :=
  let s := pyStrip raw
  if s = "" then s
  else
    let tokens0 := pySplit s
    let tokens :=
      if tokens0.length ≥ 2 && isTwoUpper (tokens0.headD "") then
        tokens0.drop 1
      else tokens0
    let candidate :=
      if tokens.length ≥ 2 && pyIsDigit (tokens.getLastD "")
          && pyIsDigit ((tokens.dropLast).getLastD "") then
        tokens.getLastD ""
      else tokens.headD ""
    if candidate.data.contains '+' then
      String.mk (candidate.data.takeWhile (fun c => c ≠ '+'))
    else candidate

/-- The canonicalization algorithm exactly as the specification words it
(claim C2): trim, split, drop a leading two-uppercase-letter token when at
least two tokens, pick the last token when at least two remain and the
last two are all digits (else the first), truncate at the first `+`. -/
def cleanSpecC2 (raw : String) : String :=
  let s := pyStrip raw
  if s = "" then ""
  else
    let tokens0 := pySplit s
    let tokens :=
      if tokens0.length ≥ 2 && isTwoUpper (tokens0.headD "") then
        tokens0.drop 1
      else tokens0
    let candidate :=
      if tokens.length ≥ 2 && pyIsDigit (tokens.getLastD "")
          && pyIsDigit ((tokens.dropLast).getLastD "") then
        tokens.getLastD ""
      else tokens.headD ""
    String.mk (candidate.data.takeWhile (fun c => c ≠ '+'))

/-! ## Variant registry and scan-ledger state (`App`)

The GUI-facing parts of `App` (cards, labels, sounds) are presentation
and excluded by the specification; the embedded state is the data core:
mappings, the permanent `barcode_versions` registry, the scan results
list, the per-variant counts and metadata, and the id counter.  Python
dicts become insertion-ordered association lists with unique keys
(`dictSet` updates in place or appends, `List.lookup` reads). -/

/-- A scan result (`ScanResult` dataclass). -/
structure ScanResult where
  id : Nat
  timestamp : String
  barcode : String
  size_gb : Int
  speed_mts : Int
  mem_type : String
  module_class : Option String
  ecc : Option Bool
  manufacturer : String
  version : Nat
deriving Repr, DecidableEq

/-- Python dict assignment `d[k] = v`: update in place when the key
exists, else append (insertion order preserved). -/
def dictSet (d : List (String × α)) (k : String) (v : α) :
    List (String × α) :=
  if (d.lookup k).isSome then
    d.map (fun p => if p.1 = k then (k, v) else p)
  else d ++ [(k, v)]

/-- The per-variant metadata tuple held in `variant_meta` (a Python
6-tuple, embedded as a record). -/
structure VariantMeta where
  size_gb : Int
  speed_mts : Int
  mem_type : String
  module_class : Option String
  ecc : Option Bool
  manufacturer : String
deriving Repr, DecidableEq

/-- `variant_meta` value for a scan result. -/
def metaOfResult (r : ScanResult) : VariantMeta :=
  ⟨r.size_gb, r.speed_mts, r.mem_type, r.module_class, r.ecc, r.manufacturer⟩

/-- The data core of `App`: mapping list, permanent version registry,
scan results, per-variant aggregates, id counter. -/
structure AppState where
  mappings : List Mapping
  versions : List (String × Nat)
  results : List ScanResult
  counts : List (String × Nat)
  meta : List (String × VariantMeta)
  seq : Nat
deriving Repr, DecidableEq

/-- `max(versions.values()) if versions else 0`. -/
def maxVersion (vs : List (String × Nat)) : Nat :=
  vs.foldr (fun p a => max p.2 a) 0

/-- `App.add_result`: assign (or confirm) the permanent version of the
key, bump the count, record metadata, append the scan result.  The
timestamp is an input (the source reads the clock). -/
def add_result (s : AppState) (barcode_key : String) (size_gb speed_mts : Int)
    (mem_type : String) (module_class : Option String) (ecc : Option Bool)
    (manufacturer : String) (ts : String) : AppState :=
  let rid := s.seq + 1
  let vpair :=
    match s.versions.lookup barcode_key with
    | some v => (v, s.versions)
    | none =>
      let v := maxVersion s.versions + 1
      (v, dictSet s.versions barcode_key v)
  let counts :=
    dictSet s.counts barcode_key ((s.counts.lookup barcode_key).getD 0 + 1)
  let meta :=
    dictSet s.meta barcode_key
      ⟨size_gb, speed_mts, mem_type, module_class, ecc, manufacturer⟩
  let sr : ScanResult :=
    { id := rid, timestamp := ts, barcode := barcode_key, size_gb := size_gb,
      speed_mts := speed_mts, mem_type := mem_type,
      module_class := module_class, ecc := ecc, manufacturer := manufacturer,
      version := vpair.1 }
  { s with versions := vpair.2, counts := counts, meta := meta,
           results := s.results ++ [sr], seq := rid }

/-- The loop body of `App._rebuild_everything_from_results`: walk the
results in order; a key absent from the registry gets `next_ver` (then
`next_ver += 1`); every result's `version` field is overwritten with the
registry value; counts and metadata are recomputed. -/
def rebuildLoop : List ScanResult → List (String × Nat) → Nat →
    List (String × Nat) → List (String × VariantMeta) → List ScanResult →
    List (String × Nat) × List (String × Nat) × List (String × VariantMeta)
      × List ScanResult
  | [], vs, _, cs, ms, acc => (vs, cs, ms, acc)
  | r :: rest, vs, nv, cs, ms, acc =>
    let b := r.barcode
    let step :=
      match vs.lookup b with
      | some _ => (vs, nv)
      | none => (dictSet vs b nv, nv + 1)
    let v := (step.1.lookup b).getD 0
    rebuildLoop rest step.1 step.2
      (dictSet cs b ((cs.lookup b).getD 0 + 1))
      (dictSet ms b (metaOfResult r))
      (acc ++ [{ r with version := v }])

/-- `App._rebuild_everything_from_results`: clear counts and metadata,
keep the permanent registry, replay the results list in order. -/
def rebuild (s : AppState) : AppState :=
  let out := rebuildLoop s.results s.versions (maxVersion s.versions + 1) [] [] []
  { s with versions := out.1, counts := out.2.1, meta := out.2.2.1,
           results := out.2.2.2 }

/-- `App.remove_result` / `App.remove_latest_scan`: drop the scan with the
given id and rebuild everything from the remaining results. -/
def remove_result (s : AppState) (item_id : Nat) : AppState :=
  rebuild { s with results := s.results.filter (fun r => r.id ≠ item_id) }

/-- `App.clear_results_and_counts` (after confirmation): clear the scan
history and aggregates; the version registry is kept. -/
def clear_results_and_counts (s : AppState) : AppState :=
  { s with results := [], counts := [], meta := [] }

/-- One persisted scan-ledger record (`scan_results.json` entry):
id, timestamp, barcode, version. -/
structure LedgerEntry where
  id : Nat
  timestamp : String
  barcode : String
  version : Nat
deriving Repr, DecidableEq

/-- `App._load_results_file`: walk the ledger in file order; strip each
barcode and skip empties; re-parse every barcode with the current
mappings, defaulting the four main fields when absent (`x or 0`,
`x or ""`); keep the persisted id, timestamp and version as read. -/
def load_results_file (rs : String → String → Bool) (mappings : List Mapping) :
    List LedgerEntry → List ScanResult
  | [] => []
  | e :: t =>
    let b := pyStrip e.barcode
    if b = "" then load_results_file rs mappings t
    else
      let p := parse_barcode rs mappings b
      { id := e.id, timestamp := e.timestamp, barcode := b,
        size_gb := p.size_gb.getD 0, speed_mts := p.speed_mts.getD 0,
        mem_type := p.mem_type.getD "", module_class := p.module_class,
        ecc := p.ecc, manufacturer := p.manufacturer.getD "",
        version := e.version } :: load_results_file rs mappings t

/-- `max((r.id for r in results), default=0)`. -/
def maxResultId (results : List ScanResult) : Nat :=
  results.foldr (fun r a => max r.id a) 0

/-- `App._load_results_from_file_and_rebuild`: load the ledger, seed the
id counter from the maximum id present, rebuild everything. -/
def load_and_rebuild (rs : String → String → Bool) (s : AppState)
    (ledger : List LedgerEntry) : AppState :=
  let results := load_results_file rs s.mappings ledger
  rebuild { s with results := results, seq := maxResultId results }

/-- Replay as claim C6 words it: the same load-and-rebuild, but with the
ledger first sorted into ascending id order.  This is the claim-side
definition used to compare against the code, which replays in file
order. -/
def load_and_rebuild_by_id (rs : String → String → Bool) (s : AppState)
    (ledger : List LedgerEntry) : AppState :=
  load_and_rebuild rs s (ledger.insertionSort (fun a b => a.id ≤ b.id))

/-- The operations on scan history named by claims C1/C10: a classified
scan (`add_result`), deletion of a scan by id, and clear-all. -/
inductive AppOp where
  | scan (key : String) (size speed : Int) (mtype : String)
      (mc : Option String) (ecc : Option Bool) (mfr : String) (ts : String)
  | removeScan (item_id : Nat)
  | clearAll

/-- Apply one operation. -/
def applyOp (s : AppState) : AppOp → AppState
  | AppOp.scan key size speed mtype mc ecc mfr ts =>
    add_result s key size speed mtype mc ecc mfr ts
  | AppOp.removeScan item_id => remove_result s item_id
  | AppOp.clearAll => clear_results_and_counts s

/-- Apply a list of operations in order. -/
def applyOps (s : AppState) (ops : List AppOp) : AppState :=
  ops.foldl applyOp s

/-- The exact (non-regex) pass of `MappingStore.find` on its own: first
mapping in list order whose pattern is not a regex and equals the code. -/
def firstExact (mappings : List Mapping) (code : String) : Option Mapping :=
  mappings.find? (fun m => !m.regex && m.pattern == code)

/-- The payload of one classified scan (the arguments `on_scan_submit`
passes to `add_result`). -/
structure ScanInput where
  key : String
  size_gb : Int
  speed_mts : Int
  mem_type : String
  module_class : Option String
  ecc : Option Bool
  manufacturer : String
  timestamp : String

/-- Classify a sequence of scans in order (`add_result` per scan). -/
def scanAll (s : AppState) : List ScanInput → AppState
  | [] => s
  | e :: t =>
    scanAll (add_result s e.key e.size_gb e.speed_mts e.mem_type
      e.module_class e.ecc e.manufacturer e.timestamp) t

/-- The keys a ledger contributes, in file order: each entry's stripped
barcode, empties skipped (mirrors the `_load_results_file` filter). -/
def ledgerKeys (ledger : List LedgerEntry) : List String :=
  ledger.filterMap (fun e =>
    if pyStrip e.barcode = "" then none else some (pyStrip e.barcode))

/-- A mapping whose stored size is the present value `0`: all four main
fields are present, yet the source's `all([...])` treats 0 as missing. -/
def c7Mapping : Mapping :=
  { pattern := "K", size_gb := some 0, speed_mts := some 1600,
    mem_type := some "DDR3", manufacturer := some "Samsung",
    module_class := none, ecc := none, regex := false }

/-- A one-element mapping list for exercising `remove_index`. -/
def c9Mapping : Mapping :=
  { pattern := "A", size_gb := none, speed_mts := none,
    mem_type := none, manufacturer := none }

/-- A mapping with a stored (explicit) speed of 0 and a module class that
decodes to 1600 MT/s. -/
def c3Mapping : Mapping :=
  { pattern := "K", size_gb := some 1, speed_mts := some 0,
    mem_type := none, manufacturer := some "Samsung",
    module_class := some "PC3-12800", ecc := none, regex := false }

/-- A regex mapping that would match `"K"` if the regex pass ran first. -/
def c3RegexMapping : Mapping :=
  { pattern := "K.*", size_gb := some 99, speed_mts := some 9999,
    mem_type := some "DDR4", manufacturer := some "Acme",
    module_class := none, ecc := none, regex := true }

/-- An exact mapping for `"K"` listed after the regex mapping. -/
def c3ExactMapping : Mapping :=
  { pattern := "K", size_gb := some 8, speed_mts := some 1600,
    mem_type := some "DDR3", manufacturer := some "Samsung",
    module_class := none, ecc := none, regex := false }

/-! ## Theorems -/

/-- `takeWhile` keeps a list with no `+` intact. -/
theorem takeWhile_ne_plus_of_not_contains {l : List Char}
    (h : l.contains '+' = false) :
    l.takeWhile (fun c => c ≠ '+') = l := by
  have h2 : '+' ∉ l := by simpa using h
  rw [List.takeWhile_eq_self_iff]
  intro x hx
  have hne : x ≠ '+' := fun hp => h2 (hp ▸ hx)
  simpa using hne

/-- The conditional `+`-truncation of the source equals the spec's
unconditional truncation. -/
theorem plusTrunc_if_eq (cand : String) :
    (if cand.data.contains '+' then
        String.mk (cand.data.takeWhile (fun c => c ≠ '+'))
      else cand)
      = String.mk (cand.data.takeWhile (fun c => c ≠ '+')) := by
  by_cases hc : cand.data.contains '+' = true
  · rw [if_pos hc]
  · rw [if_neg hc]
    obtain ⟨l⟩ := cand
    rw [takeWhile_ne_plus_of_not_contains (by simpa using hc)]

/-- C2: `canonicalize` trims outer whitespace (empty for whitespace-only
input), splits on whitespace, drops a leading token of exactly two
uppercase letters when at least two tokens are present, picks the last
token when at least two tokens remain and the last two are all decimal
digits (otherwise the first remaining token), and truncates the candidate
at the first `+`; in particular on the three given examples. -/
theorem C2_canonicalize_follows_spec :
    (∀ raw, clean_scanned_code raw = cleanSpecC2 raw)
    ∧ clean_scanned_code "CN 10680063 123201927" = "123201927"
    ∧ clean_scanned_code "M391B2873FH0+ABC" = "M391B2873FH0"
    ∧ clean_scanned_code "  HMT84GL7AMR4C  " = "HMT84GL7AMR4C" := by
  refine ⟨fun raw => ?_, by decide, by decide, by decide⟩
  simp only [clean_scanned_code, cleanSpecC2]
  by_cases h : pyStrip raw = ""
  · simp [h]
  · rw [if_neg h, if_neg h]
    exact plusTrunc_if_eq _

/-- C7 counterexample: classifying `"K"` against `c7Mapping` returns all
four fields present (size = 0, speed = 1600, type = DDR3, manufacturer =
Samsung) yet `parsed_ok` (the `complete` flag) is `false`, contradicting
the claim that presence of the four fields, including a stored size of 0,
always makes it true. -/
theorem C7_counterexample :
    (parse_barcode (fun _ _ => false) [c7Mapping] "K").size_gb = some 0
    ∧ (parse_barcode (fun _ _ => false) [c7Mapping] "K").speed_mts = some 1600
    ∧ (parse_barcode (fun _ _ => false) [c7Mapping] "K").mem_type = some "DDR3"
    ∧ (parse_barcode (fun _ _ => false) [c7Mapping] "K").manufacturer
        = some "Samsung"
    ∧ (parse_barcode (fun _ _ => false) [c7Mapping] "K").parsed_ok = false := by
  refine ⟨?_, ?_, ?_, ?_, ?_⟩ <;> decide

/-- C7 amended: the result's `complete` flag holds iff all four of size,
speed, memory type and manufacturer are present *and Python-truthy*
(size and speed nonzero, type and manufacturer nonempty); module class
and ECC never affect it.  Holds for every store and every key, in both
the mapping branch and the heuristic branch. -/
theorem C7_complete_iff_truthy (rs : String → String → Bool)
    (mappings : List Mapping) (code : String) :
    (parse_barcode rs mappings code).parsed_ok =
      (truthyOI (parse_barcode rs mappings code).size_gb
        && truthyOI (parse_barcode rs mappings code).speed_mts
        && truthyOS (parse_barcode rs mappings code).mem_type
        && truthyOS (parse_barcode rs mappings code).manufacturer) := by
  rcases h : findMapping rs mappings (pyStrip code) with _ | m <;>
    simp only [parse_barcode, h]

/-- C9 counterexample: `remove_index` with index `-1` (which the claim
calls invalid, `i < 0`) on a one-element list is *not* a no-op — Python
`del lst[-1]` deletes the last element. -/
theorem C9_counterexample :
    remove_index [c9Mapping] (-1) = [] ∧ ([] : List Mapping) ≠ [c9Mapping] := by
  refine ⟨by decide, by decide⟩

/-- C9 amended: `removeAt(i)` is a no-op exactly for the indices Python
rejects, `i ≥ length` or `i < -length`; an index with `-length ≤ i < 0`
addresses position `length + i` from the end (Python negative indexing)
and deletes that element. -/
theorem C9_remove_index_amended (l : List Mapping) (i : Int) :
    ((l.length : Int) ≤ i ∨ i < -(l.length : Int) → remove_index l i = l)
    ∧ (-(l.length : Int) ≤ i → i < 0 →
        remove_index l i = l.eraseIdx (l.length - (-i).toNat)) := by
  constructor
  · intro h
    unfold remove_index pyDelIdx
    rw [if_neg (by omega), if_neg (by omega)]
  · intro h1 h2
    unfold remove_index pyDelIdx
    rw [if_neg (by omega), if_pos (by omega)]

/-- C9 witness: the amended theorem applied at concrete inputs — index 5
on a one-element list is a no-op, index `-1` deletes the only element. -/
theorem C9_witness :
    remove_index [c9Mapping] 5 = [c9Mapping]
    ∧ remove_index [c9Mapping] (-1) = [c9Mapping].eraseIdx 0 :=
  ⟨(C9_remove_index_amended [c9Mapping] 5).1 (by decide),
   by
    have h := (C9_remove_index_amended [c9Mapping] (-1)).2 (by decide) (by decide)
    simpa using h⟩

/-! ### Character-class facts -/

/-- Two characters in disjoint boolean classes differ. -/
theorem ne_of_pred {f : Char → Bool} {c d : Char} (hc : f c = true)
    (hd : f d = false) : c ≠ d := by
  intro e
  rw [e, hd] at hc
  exact Bool.false_ne_true hc

/-- An ASCII letter is not a decimal digit. -/
theorem alpha_not_digit {c : Char} (h : c.isAlpha = true) :
    c.isDigit = false := by
  simp only [Char.isAlpha, Char.isUpper, Char.isLower, Char.isDigit, Char.le_def,
    Bool.or_eq_true, Bool.and_eq_true, decide_eq_true_eq, UInt32.le_def,
    BitVec.le_def] at h
  simp only [Char.isDigit, Char.le_def, UInt32.le_def, BitVec.le_def,
    Bool.and_eq_false_iff, decide_eq_false_iff_not, not_le]
  have e65 : (UInt32.toBitVec 65).toNat = 65 := rfl
  have e90 : (UInt32.toBitVec 90).toNat = 90 := rfl
  have e97 : (UInt32.toBitVec 97).toNat = 97 := rfl
  have e122 : (UInt32.toBitVec 122).toNat = 122 := rfl
  have e48 : (UInt32.toBitVec 48).toNat = 48 := rfl
  have e57 : (UInt32.toBitVec 57).toNat = 57 := rfl
  rw [e65, e90, e97, e122] at h
  rw [e48, e57]
  omega

/-- A decimal digit is not Python whitespace. -/
theorem digit_not_space {c : Char} (h : c.isDigit = true) :
    isPySpace c = false := by
  have h1 : c ≠ ' ' := ne_of_pred h (by decide)
  have h2 : c ≠ '\t' := ne_of_pred h (by decide)
  have h3 : c ≠ '\n' := ne_of_pred h (by decide)
  have h4 : c ≠ '\r' := ne_of_pred h (by decide)
  have h5 : c ≠ '\x0b' := ne_of_pred h (by decide)
  have h6 : c ≠ '\x0c' := ne_of_pred h (by decide)
  simp [isPySpace, h1, h2, h3, h4, h5, h6]

/-- An ASCII letter is not Python whitespace. -/
theorem alpha_not_space {c : Char} (h : c.isAlpha = true) :
    isPySpace c = false := by
  have h1 : c ≠ ' ' := ne_of_pred h (by decide)
  have h2 : c ≠ '\t' := ne_of_pred h (by decide)
  have h3 : c ≠ '\n' := ne_of_pred h (by decide)
  have h4 : c ≠ '\r' := ne_of_pred h (by decide)
  have h5 : c ≠ '\x0b' := ne_of_pred h (by decide)
  have h6 : c ≠ '\x0c' := ne_of_pred h (by decide)
  simp [isPySpace, h1, h2, h3, h4, h5, h6]

/-- A decimal digit is neither `-` nor a space (the separator class of
`MODULE_CLASS_RE`). -/
theorem digit_not_sep {c : Char} (h : c.isDigit = true) :
    (c = '-' || c = ' ') = false := by
  have h1 : c ≠ '-' := ne_of_pred h (by decide)
  have h2 : c ≠ ' ' := ne_of_pred h (by decide)
  simp [h1, h2]

/-- A successful association-list lookup comes from a member pair. -/
theorem lookup_some_mem {tbl : List (Char × Char)} {k v : Char}
    (h : tbl.lookup k = some v) : (k, v) ∈ tbl := by
  induction tbl with
  | nil => simp [List.lookup] at h
  | cons p t ih =>
    obtain ⟨k1, v1⟩ := p
    simp only [List.lookup] at h
    cases hk : (k == k1) with
    | false =>
      rw [hk] at h
      exact List.mem_cons_of_mem _ (ih h)
    | true =>
      rw [hk] at h
      have hk2 : k = k1 := by simpa using hk
      have hv : v1 = v := by simpa using h
      subst hk2
      subst hv
      exact List.mem_cons_self _ _

/-- Characters outside the key class of a table have no binding. -/
theorem lookup_none_of_pred (tbl : List (Char × Char)) {f : Char → Bool}
    {c : Char} (hall : ∀ p ∈ tbl, f p.1 = false) (hc : f c = true) :
    tbl.lookup c = none := by
  induction tbl with
  | nil => rfl
  | cons p t ih =>
    obtain ⟨k1, v1⟩ := p
    have hne : c ≠ k1 :=
      ne_of_pred hc (hall (k1, v1) (List.mem_cons_self _ t))
    have hb : (c == k1) = false := by simpa using hne
    simp only [List.lookup, hb]
    exact ih (fun q hq => hall q (List.mem_cons_of_mem _ hq))

/-- `str.upper()` fixes a decimal digit. -/
theorem chUp_digit {c : Char} (h : c.isDigit = true) : chUp c = c := by
  unfold chUp
  rw [lookup_none_of_pred lowerUpperPairs (by decide) h]
  rfl

/-- `str.upper()` is idempotent on characters. -/
theorem chUp_idem (c : Char) : chUp (chUp c) = chUp c := by
  unfold chUp
  cases h : lowerUpperPairs.lookup c with
  | none => simp [h]
  | some v =>
    have hv : ∀ p ∈ lowerUpperPairs, lowerUpperPairs.lookup p.2 = none := by
      decide
    simp only [Option.getD_some]
    rw [hv (c, v) (lookup_some_mem h)]
    rfl

/-- `str.upper()` keeps an ASCII letter a letter. -/
theorem chUp_alpha {c : Char} (h : c.isAlpha = true) :
    (chUp c).isAlpha = true := by
  unfold chUp
  cases hl : lowerUpperPairs.lookup c with
  | none => simpa using h
  | some v =>
    have hv : ∀ p ∈ lowerUpperPairs, p.2.isAlpha = true := by decide
    simpa using hv (c, v) (lookup_some_mem hl)

/-! ### Evaluation lemmas for the matcher -/

/-- `tryFrom` returns the greedy (topmost) attempt when it succeeds. -/
theorem tryFrom_eq_of_top {k : Nat → Option Caps} {lo j : Nat} {r : Caps}
    (hj : lo ≤ j) (hk : k j = some r) : tryFrom k lo j = some r := by
  cases j with
  | zero =>
    have : lo = 0 := Nat.le_zero.mp hj
    simp [tryFrom, this, hk]
  | succ n =>
    unfold tryFrom
    rw [if_neg (by omega), hk]

/-- A leading run of `p`-characters followed by a non-`p` head (or the
end) has length exactly the run. -/
theorem leadRun_append_stop {p : Char → Bool} (ds us : List Char)
    (hds : ∀ c ∈ ds, p c = true)
    (hus : ∀ c, us.head? = some c → p c = false) :
    leadRun p (ds ++ us) = ds.length := by
  induction ds with
  | nil =>
    cases us with
    | nil => rfl
    | cons c t => simp [leadRun, hus c rfl]
  | cons d t ih =>
    have hd : p d = true := hds d (List.mem_cons_self d t)
    simp only [List.cons_append, leadRun, hd, if_true, List.length_cons]
    exact congrArg (fun n => n + 1)
      (ih (fun c hc => hds c (List.mem_cons_of_mem d hc)))

/-- A run entirely of `p`-characters. -/
theorem leadRun_all {p : Char → Bool} {l : List Char}
    (h : ∀ c ∈ l, p c = true) : leadRun p l = l.length := by
  have := leadRun_append_stop l [] h (fun c hc => by simp at hc)
  simpa using this

/-! ### The `MODULE_CLASS_RE` match on a well-shaped class string

The items of `MODULE_CLASS_RE` are consumed stage by stage on an input
`PC<g>-<rating><suffix>`; each stage lemma handles one item. -/

/-- Suffix stage: `(?P<suffix>[a-zA-Z]*)` consumes an all-letter tail. -/
theorem mc_suffix_stage (prev : Option Char) (caps : Caps) (us : List Char)
    (hus : ∀ c ∈ us, c.isAlpha = true) :
    matchItems [RItem.grpRep 4 Char.isAlpha 0 none] prev us caps
      = some (setCap caps 4 (String.mk us)) := by
  rw [matchItems.eq_def]
  dsimp only
  have hrb : runBound Char.isAlpha none us = us.length := by
    simp [runBound, leadRun_all hus]
  rw [hrb]
  apply tryFrom_eq_of_top (Nat.zero_le _)
  rw [List.take_length]
  rw [matchItems.eq_def]

/-- Rating stage: `(?P<rating>\d{3,6})` greedily takes the whole digit
block when it has 3 to 6 digits and the tail is letters. -/
theorem mc_rating_stage (prev : Option Char) (caps : Caps) (ds us : List Char)
    (h3 : 3 ≤ ds.length) (h6 : ds.length ≤ 6)
    (hds : ∀ c ∈ ds, c.isDigit = true) (hus : ∀ c ∈ us, c.isAlpha = true) :
    matchItems
        [RItem.grpRep 3 Char.isDigit 3 (some 6),
         RItem.grpRep 4 Char.isAlpha 0 none] prev (ds ++ us) caps
      = some (setCap (setCap caps 3 (String.mk ds)) 4 (String.mk us)) := by
  rw [matchItems.eq_def]
  dsimp only
  have hlr : leadRun Char.isDigit (ds ++ us) = ds.length :=
    leadRun_append_stop ds us hds (fun c hc => by
      cases us with
      | nil => simp at hc
      | cons u t =>
        have hu : u = c := by simpa using hc
        exact hu ▸ alpha_not_digit (hus u (List.mem_cons_self u t)))
  have hrb : runBound Char.isDigit (some 6) (ds ++ us) = ds.length := by
    simp [runBound, hlr, Nat.min_eq_left h6]
  rw [hrb]
  apply tryFrom_eq_of_top h3
  rw [List.take_left, List.drop_left]
  exact mc_suffix_stage _ _ us hus

/-- Separator stage: `[- ]?` consumes the `-`. -/
theorem mc_sep_stage (prev : Option Char) (caps : Caps) (ds us : List Char)
    (h3 : 3 ≤ ds.length) (h6 : ds.length ≤ 6)
    (hds : ∀ c ∈ ds, c.isDigit = true) (hus : ∀ c ∈ us, c.isAlpha = true) :
    matchItems
        [RItem.rep (fun c => c = '-' || c = ' ') 0 (some 1),
         RItem.grpRep 3 Char.isDigit 3 (some 6),
         RItem.grpRep 4 Char.isAlpha 0 none] prev ('-' :: (ds ++ us)) caps
      = some (setCap (setCap caps 3 (String.mk ds)) 4 (String.mk us)) := by
  rw [matchItems.eq_def]
  dsimp only
  have hlr : leadRun (fun c => decide (c = '-') || decide (c = ' '))
      ('-' :: (ds ++ us)) = 1 := by
    have := leadRun_append_stop
      (p := fun c => decide (c = '-') || decide (c = ' '))
      ['-'] (ds ++ us) (by decide)
      (fun c hc => by
        cases ds with
        | nil => simp at h3
        | cons d t =>
          have hd : d = c := by simpa using hc
          exact hd ▸ digit_not_sep (hds d (List.mem_cons_self d t)))
    simpa using this
  have hrb : runBound (fun c => decide (c = '-') || decide (c = ' '))
      (some 1) ('-' :: (ds ++ us)) = 1 := by
    simp [runBound, hlr]
  rw [hrb]
  apply tryFrom_eq_of_top (Nat.zero_le _)
  simpa [prevAfter] using mc_rating_stage (some '-') caps ds us h3 h6 hds hus

/-- Optional `l` stage: `(?P<lv>l)?` does not fire on `-`. -/
theorem mc_lv_stage (prev : Option Char) (caps : Caps) (ds us : List Char)
    (h3 : 3 ≤ ds.length) (h6 : ds.length ≤ 6)
    (hds : ∀ c ∈ ds, c.isDigit = true) (hus : ∀ c ∈ us, c.isAlpha = true) :
    matchItems
        [RItem.grpOptLitCI 2 'l',
         RItem.rep (fun c => c = '-' || c = ' ') 0 (some 1),
         RItem.grpRep 3 Char.isDigit 3 (some 6),
         RItem.grpRep 4 Char.isAlpha 0 none] prev ('-' :: (ds ++ us)) caps
      = some (setCap (setCap caps 3 (String.mk ds)) 4 (String.mk us)) := by
  rw [matchItems.eq_def]
  dsimp only
  rw [if_neg (by decide)]
  exact mc_sep_stage prev caps ds us h3 h6 hds hus

/-- Generation stage: `(?P<gen>\d+)` takes exactly the one digit before
the separator. -/
theorem mc_gen_stage (prev : Option Char) (caps : Caps) (g : Char)
    (ds us : List Char) (hg : g.isDigit = true)
    (h3 : 3 ≤ ds.length) (h6 : ds.length ≤ 6)
    (hds : ∀ c ∈ ds, c.isDigit = true) (hus : ∀ c ∈ us, c.isAlpha = true) :
    matchItems
        [RItem.grpRep 1 Char.isDigit 1 none,
         RItem.grpOptLitCI 2 'l',
         RItem.rep (fun c => c = '-' || c = ' ') 0 (some 1),
         RItem.grpRep 3 Char.isDigit 3 (some 6),
         RItem.grpRep 4 Char.isAlpha 0 none] prev
        (g :: '-' :: (ds ++ us)) caps
      = some (setCap (setCap (setCap caps 1 (String.mk [g]))
          3 (String.mk ds)) 4 (String.mk us)) := by
  rw [matchItems.eq_def]
  dsimp only
  have hlr : leadRun Char.isDigit (g :: '-' :: (ds ++ us)) = 1 := by
    have := leadRun_append_stop (p := Char.isDigit)
      [g] ('-' :: (ds ++ us))
      (by simpa using hg) (fun c hc => by
        have hd : '-' = c := by simpa using hc
        exact hd ▸ (by decide))
    simpa using this
  have hrb : runBound Char.isDigit none (g :: '-' :: (ds ++ us)) = 1 := by
    simp [runBound, hlr]
  rw [hrb]
  apply tryFrom_eq_of_top (Nat.le_refl 1)
  simpa [prevAfter] using
    mc_lv_stage (some g) (setCap caps 1 (String.mk [g])) ds us h3 h6 hds hus

/-- The full `MODULE_CLASS_RE` match at the start of
`PC<g>-<rating><suffix>`. -/
theorem mc_match_at_start (g : Char) (ds us : List Char)
    (hg : g.isDigit = true) (h3 : 3 ≤ ds.length) (h6 : ds.length ≤ 6)
    (hds : ∀ c ∈ ds, c.isDigit = true) (hus : ∀ c ∈ us, c.isAlpha = true) :
    matchItems MODULE_CLASS_RE none ('P' :: 'C' :: g :: '-' :: (ds ++ us)) []
      = some [(4, String.mk us), (3, String.mk ds), (1, String.mk [g])] := by
  unfold MODULE_CLASS_RE
  rw [matchItems.eq_def]
  dsimp only
  rw [if_pos (by decide)]
  rw [matchItems.eq_def]
  dsimp only
  rw [if_pos (by decide)]
  simpa [setCap] using
    mc_gen_stage (some 'C') [] g ds us hg h3 h6 hds hus

/-- A match at position 0 is what leftmost search returns. -/
theorem search_at_start {items : List RItem} {l : List Char} {caps : Caps}
    (h : matchItems items none l [] = some caps) :
    searchFrom items none l = some caps := by
  cases l with
  | nil => exact h
  | cons c r =>
    simp only [searchFrom]
    rw [h]

/-- Mapping a function that fixes every member is the identity. -/
theorem map_eq_self_of_fix {f : Char → Char} {l : List Char}
    (h : ∀ c ∈ l, f c = c) : l.map f = l := by
  induction l with
  | nil => rfl
  | cons c t ih =>
    rw [List.map_cons, h c (List.mem_cons_self c t),
      ih (fun d hd => h d (List.mem_cons_of_mem c hd))]

/-- `dropWhile` keeps a list whose members all fail the predicate. -/
theorem dropWhile_eq_self_of_none {p : Char → Bool} {l : List Char}
    (h : ∀ c ∈ l, p c = false) : l.dropWhile p = l := by
  cases l with
  | nil => rfl
  | cons c t => simp [List.dropWhile, h c (List.mem_cons_self c t)]

/-- `str.strip()` fixes a string with no whitespace characters. -/
theorem pyStripList_eq_self {l : List Char}
    (h : ∀ c ∈ l, isPySpace c = false) : pyStripList l = l := by
  unfold pyStripList
  rw [dropWhile_eq_self_of_none h]
  rw [dropWhile_eq_self_of_none (fun c hc => h c (List.mem_reverse.mp hc))]
  exact List.reverse_reverse l

/-- Upper-casing twice equals upper-casing once, as char lists. -/
theorem map_chUp_chUp (l : List Char) :
    (l.map chUp).map chUp = l.map chUp := by
  rw [List.map_map]
  exact List.map_congr_left (fun c _ => chUp_idem c)

/-- Reading the gen capture from the final capture list. -/
theorem getCap_one (a b c : String) :
    getCap [(4, a), (3, b), (1, c)] 1 = some c := rfl

/-- Reading the rating capture from the final capture list. -/
theorem getCap_three (a b c : String) :
    getCap [(4, a), (3, b), (1, c)] 3 = some b := rfl

/-- Reading the suffix capture from the final capture list. -/
theorem getCap_four (a b c : String) :
    getCap [(4, a), (3, b), (1, c)] 4 = some a := rfl

/-- `ModuleClassCodec.decode` on a well-shaped `PC<g>-<rating><suffix>`
string: the generation capture is exactly `g`, the rating capture exactly
the digit block, the suffix capture exactly the letter tail. -/
theorem parse_module_class_structured (g : Char) (ds us : List Char)
    (hg : g.isDigit = true) (h3 : 3 ≤ ds.length) (h6 : ds.length ≤ 6)
    (hds : ∀ c ∈ ds, c.isDigit = true) (hus : ∀ c ∈ us, c.isAlpha = true) :
    parse_module_class (String.mk ('P' :: 'C' :: g :: '-' :: (ds ++ us)))
      = (([("2", "DDR2"), ("3", "DDR3"), ("4", "DDR4"), ("5", "DDR5")] :
            List (String × String)).lookup (String.mk [g]),
         (match COMMON_MB_TO_MTS.lookup ((natOfDigits ds : Nat) : Int) with
          | some v => some v
          | none =>
            if ((natOfDigits ds : Nat) : Int) < 4000 then
              some ((natOfDigits ds : Nat) : Int)
            else some (max 1 (pyRoundDiv ((natOfDigits ds : Nat) : Int) 8))),
         if strContainsSub (String.mk (us.map chUp)) "E"
             || strContainsSub (String.mk (us.map chUp)) "Q" then some true
         else none) := by
  have hnospace : ∀ c ∈ ('P' :: 'C' :: g :: '-' :: (ds ++ us)),
      isPySpace c = false := by
    intro c hc
    simp only [List.mem_cons, List.mem_append] at hc
    rcases hc with rfl | rfl | rfl | rfl | hd | hu
    · decide
    · decide
    · exact digit_not_space hg
    · decide
    · exact digit_not_space (hds c hd)
    · exact alpha_not_space (hus c hu)
  have hstrip :
      pyStrip (String.mk ('P' :: 'C' :: g :: '-' :: (ds ++ us)))
        = String.mk ('P' :: 'C' :: g :: '-' :: (ds ++ us)) := by
    unfold pyStrip
    rw [pyStripList_eq_self hnospace]
  have hds_fix : ds.map chUp = ds :=
    map_eq_self_of_fix (fun c hc => chUp_digit (hds c hc))
  have hupper :
      pyUpper (String.mk ('P' :: 'C' :: g :: '-' :: (ds ++ us)))
        = String.mk ('P' :: 'C' :: g :: '-' :: (ds ++ us.map chUp)) := by
    unfold pyUpper
    simp only [List.map_cons, List.map_append, hds_fix, chUp_digit hg]
    rfl
  have husU : ∀ c ∈ us.map chUp, c.isAlpha = true := by
    intro c hc
    obtain ⟨d, hd, rfl⟩ := List.mem_map.mp hc
    exact chUp_alpha (hus d hd)
  have hsearch :
      reSearch MODULE_CLASS_RE
          (String.mk ('P' :: 'C' :: g :: '-' :: (ds ++ us.map chUp)))
        = some [(4, String.mk (us.map chUp)), (3, String.mk ds),
                (1, String.mk [g])] := by
    unfold reSearch
    exact search_at_start
      (mc_match_at_start g ds (us.map chUp) hg h3 h6 hds husU)
  unfold parse_module_class
  rw [hstrip, hupper]
  dsimp only
  rw [hsearch]
  dsimp only
  rw [getCap_one, getCap_three, getCap_four]
  dsimp only [Option.getD_some]
  have hsufU : pyUpper (String.mk (us.map chUp)) = String.mk (us.map chUp) := by
    unfold pyUpper
    rw [map_chUp_chUp]
  rw [hsufU]

/-- The generation table of `parse_module_class` as a case split on the
single generation character. -/
theorem gen_lookup_eq (g : Char) :
    ([("2", "DDR2"), ("3", "DDR3"), ("4", "DDR4"), ("5", "DDR5")] :
        List (String × String)).lookup (String.mk [g])
      = (if g = '2' then some "DDR2" else if g = '3' then some "DDR3"
         else if g = '4' then some "DDR4" else if g = '5' then some "DDR5"
         else none) := by
  have hb : ∀ (c : Char), g ≠ c → (String.mk [g] == String.mk [c]) = false := by
    intro c hgc
    apply beq_eq_false_iff_ne.mpr
    intro e
    exact hgc (by simpa [String.ext_iff] using e)
  by_cases h2 : g = '2'
  · subst h2; decide
  · rw [if_neg h2]
    by_cases h3 : g = '3'
    · subst h3; decide
    · rw [if_neg h3]
      by_cases h4 : g = '4'
      · subst h4; decide
      · rw [if_neg h4]
        by_cases h5 : g = '5'
        · subst h5; decide
        · rw [if_neg h5]
          simp only [List.lookup, hb '2' h2, hb '3' h3, hb '4' h4, hb '5' h5]

/-- C4: decoding `PC<g>-<rating><suffix>` (g a digit, rating 3 to 6
digits, suffix letters only) yields DDR2/3/4/5 for g = 2/3/4/5 and no
type otherwise; the speed is the fixed table's entry for the rating,
else the rating itself when below 4000, else `round(rating/8)` (Python
half-to-even) with minimum 1; the ECC hint is true iff the upper-cased
suffix contains `E` or `Q`, absent otherwise; and the two given examples
hold. -/
theorem C4_module_class_decode :
    (∀ (g : Char) (r suf : String), g.isDigit = true →
      3 ≤ r.data.length → r.data.length ≤ 6 →
      (∀ c ∈ r.data, c.isDigit = true) →
      (∀ c ∈ suf.data, c.isAlpha = true) →
      parse_module_class ("PC" ++ String.mk [g] ++ "-" ++ r ++ suf)
        = ((if g = '2' then some "DDR2" else if g = '3' then some "DDR3"
            else if g = '4' then some "DDR4" else if g = '5' then some "DDR5"
            else none),
           (match COMMON_MB_TO_MTS.lookup ((natOfDigits r.data : Nat) : Int) with
            | some v => some v
            | none =>
              if ((natOfDigits r.data : Nat) : Int) < 4000 then
                some ((natOfDigits r.data : Nat) : Int)
              else
                some (max 1 (pyRoundDiv ((natOfDigits r.data : Nat) : Int) 8))),
           (if strContainsSub (pyUpper suf) "E"
               || strContainsSub (pyUpper suf) "Q" then some true else none)))
    ∧ parse_module_class "PC3-12800" = (some "DDR3", some 1600, none)
    ∧ parse_module_class "PC3-12800E" = (some "DDR3", some 1600, some true) := by
  refine ⟨?_, by decide, by decide⟩
  intro g r suf hg h3 h6 hr hs
  obtain ⟨rl⟩ := r
  obtain ⟨sl⟩ := suf
  have hstr : ("PC" ++ String.mk [g] ++ "-" ++ String.mk rl ++ String.mk sl)
      = String.mk ('P' :: 'C' :: g :: '-' :: (rl ++ sl)) := rfl
  rw [hstr, parse_module_class_structured g rl sl hg h3 h6 hr hs,
    gen_lookup_eq g]
  rfl

/-- C4 witness: the decode theorem applied at `PC3-12800E`. -/
theorem C4_witness :
    parse_module_class ("PC" ++ String.mk ['3'] ++ "-" ++ "12800" ++ "E")
      = (some "DDR3", some 1600, some true) := by
  have h := C4_module_class_decode.1 '3' "12800" "E" (by decide) (by decide)
    (by decide) (by decide) (by decide)
  rw [h]
  decide

/-! ### The `MODULE_CLASS_RE` match without a separator -/

/-- `str.lower()` fixes a decimal digit. -/
theorem chDown_digit {c : Char} (h : c.isDigit = true) : chDown c = c := by
  unfold chDown
  rw [lookup_none_of_pred upperLowerPairs (by decide) h]
  rfl

/-- `tryFrom` below the lower bound fails. -/
theorem tryFrom_none_of_lt {k : Nat → Option Caps} {lo j : Nat} (h : j < lo) :
    tryFrom k lo j = none := by
  cases j with
  | zero =>
    unfold tryFrom
    rw [if_neg (by omega)]
  | succ n =>
    unfold tryFrom
    rw [if_pos h]

/-- A failing greedy attempt falls through to the next count. -/
theorem tryFrom_step {k : Nat → Option Caps} {lo j : Nat}
    (h : k (j + 1) = none) : tryFrom k lo (j + 1) = tryFrom k lo j := by
  by_cases hj : j + 1 < lo
  · rw [tryFrom_none_of_lt hj, tryFrom_none_of_lt (by omega)]
  · conv_lhs => rw [tryFrom.eq_def]
    dsimp only
    rw [if_neg hj, h]

/-- A `[- ]?` item consumes nothing when the head is not a separator. -/
theorem sep_zero_stage (items : List RItem) (prev : Option Char)
    (caps : Caps) (l : List Char)
    (hl : leadRun (fun c => c = '-' || c = ' ') l = 0) :
    matchItems
        (RItem.rep (fun c => c = '-' || c = ' ') 0 (some 1) :: items)
        prev l caps
      = matchItems items prev l caps := by
  rw [matchItems.eq_def]
  dsimp only
  have hrb : runBound (fun c => decide (c = '-') || decide (c = ' '))
      (some 1) l = 0 := by
    simp [runBound, hl]
  rw [hrb]
  unfold tryFrom
  rw [if_pos rfl]
  simp [prevAfter]

/-- After the generation group, a digit tail shorter than three
characters cannot complete the match. -/
theorem mc_tail_fail (prev : Option Char) (caps : Caps) (l : List Char)
    (hlen : l.length < 3) (hl : ∀ c ∈ l, c.isDigit = true) :
    matchItems
        [RItem.grpOptLitCI 2 'l',
         RItem.rep (fun c => c = '-' || c = ' ') 0 (some 1),
         RItem.grpRep 3 Char.isDigit 3 (some 6),
         RItem.grpRep 4 Char.isAlpha 0 none] prev l caps
      = none := by
  have hsep : leadRun (fun c => c = '-' || c = ' ') l = 0 := by
    cases l with
    | nil => rfl
    | cons c t =>
      simp [leadRun, digit_not_sep (hl c (List.mem_cons_self c t))]
  have hrat : matchItems
      [RItem.grpRep 3 Char.isDigit 3 (some 6),
       RItem.grpRep 4 Char.isAlpha 0 none] prev l caps = none := by
    rw [matchItems.eq_def]
    dsimp only
    have hrb : runBound Char.isDigit (some 6) l = l.length := by
      have := leadRun_all hl
      simp [runBound, this]
      omega
    rw [hrb]
    exact tryFrom_none_of_lt hlen
  cases l with
  | nil =>
    rw [matchItems.eq_def]
    dsimp only
    rw [sep_zero_stage _ _ _ _ hsep]
    exact hrat
  | cons c t =>
    rw [matchItems.eq_def]
    dsimp only
    have hcd : c.isDigit = true := hl c (List.mem_cons_self c t)
    rw [chDown_digit hcd, if_neg (by
      intro e
      exact absurd hcd (e ▸ by decide))]
    rw [sep_zero_stage _ _ _ _ hsep]
    exact hrat

/-- The full `MODULE_CLASS_RE` match on `PC<g><r>` with no separator and
a three-digit rating: the greedy generation group backtracks to one
digit and the rating takes the remaining three. -/
theorem mc_match_nosep (g d1 d2 d3 : Char) (hg : g.isDigit = true)
    (h1 : d1.isDigit = true) (h2 : d2.isDigit = true)
    (h3 : d3.isDigit = true) :
    matchItems MODULE_CLASS_RE none ['P', 'C', g, d1, d2, d3] []
      = some [(4, ""), (3, String.mk [d1, d2, d3]), (1, String.mk [g])] := by
  unfold MODULE_CLASS_RE
  rw [matchItems.eq_def]
  dsimp only
  rw [if_pos (by decide)]
  rw [matchItems.eq_def]
  dsimp only
  rw [if_pos (by decide)]
  rw [matchItems.eq_def]
  dsimp only
  have hrb : runBound Char.isDigit none [g, d1, d2, d3] = 4 := by
    have : ∀ c ∈ [g, d1, d2, d3], c.isDigit = true := by
      intro c hc
      rcases List.mem_cons.mp hc with rfl | hc
      · exact hg
      · rcases List.mem_cons.mp hc with rfl | hc
        · exact h1
        · rcases List.mem_cons.mp hc with rfl | hc
          · exact h2
          · rcases List.mem_cons.mp hc with rfl | hc
            · exact h3
            · simp at hc
    simp [runBound, leadRun_all this]
  rw [hrb]
  rw [tryFrom_step (by
    dsimp only [List.take, List.drop]
    exact mc_tail_fail _ _ [] (by decide) (by intro c hc; simp at hc))]
  rw [tryFrom_step (by
    dsimp only [List.take, List.drop]
    exact mc_tail_fail _ _ [d3] (by simp) (by
      intro c hc
      rcases List.mem_cons.mp hc with rfl | hc
      · exact h3
      · simp at hc))]
  rw [tryFrom_step (by
    dsimp only [List.take, List.drop]
    exact mc_tail_fail _ _ [d2, d3] (by simp) (by
      intro c hc
      rcases List.mem_cons.mp hc with rfl | hc
      · exact h2
      · rcases List.mem_cons.mp hc with rfl | hc
        · exact h3
        · simp at hc))]
  apply tryFrom_eq_of_top (Nat.le_refl 1)
  dsimp only [List.take, List.drop]
  rw [matchItems.eq_def]
  dsimp only
  rw [chDown_digit h1, if_neg (by
    intro e
    exact absurd h1 (e ▸ by decide))]
  rw [sep_zero_stage _ _ _ _ (by
    simp [leadRun, digit_not_sep h1])]
  have := mc_rating_stage (prevAfter none (List.take 1 [g, d1, d2, d3]))
    (setCap [] 1 (String.mk (List.take 1 [g, d1, d2, d3])))
    [d1, d2, d3] [] (by simp) (by simp)
    (by
      intro c hc
      rcases List.mem_cons.mp hc with rfl | hc
      · exact h1
      · rcases List.mem_cons.mp hc with rfl | hc
        · exact h2
        · rcases List.mem_cons.mp hc with rfl | hc
          · exact h3
          · simp at hc)
    (by intro c hc; simp at hc)
  simpa [setCap] using this

/-- `ModuleClassCodec.decode` on `PC<g><r>` with no separator and a
three-digit rating decodes the same generation and rating as the
separated form (and an empty suffix). -/
theorem parse_module_class_nosep3 (g d1 d2 d3 : Char) (hg : g.isDigit = true)
    (h1 : d1.isDigit = true) (h2 : d2.isDigit = true)
    (h3 : d3.isDigit = true) :
    parse_module_class (String.mk ['P', 'C', g, d1, d2, d3])
      = (([("2", "DDR2"), ("3", "DDR3"), ("4", "DDR4"), ("5", "DDR5")] :
            List (String × String)).lookup (String.mk [g]),
         (match COMMON_MB_TO_MTS.lookup
             ((natOfDigits [d1, d2, d3] : Nat) : Int) with
          | some v => some v
          | none =>
            if ((natOfDigits [d1, d2, d3] : Nat) : Int) < 4000 then
              some ((natOfDigits [d1, d2, d3] : Nat) : Int)
            else
              some (max 1
                (pyRoundDiv ((natOfDigits [d1, d2, d3] : Nat) : Int) 8))),
         none) := by
  have hnospace : ∀ c ∈ ['P', 'C', g, d1, d2, d3], isPySpace c = false := by
    intro c hc
    simp only [List.mem_cons] at hc
    rcases hc with rfl | rfl | rfl | rfl | rfl | rfl | hc
    · decide
    · decide
    · exact digit_not_space hg
    · exact digit_not_space h1
    · exact digit_not_space h2
    · exact digit_not_space h3
    · simp at hc
  have hstrip : pyStrip (String.mk ['P', 'C', g, d1, d2, d3])
      = String.mk ['P', 'C', g, d1, d2, d3] := by
    unfold pyStrip
    rw [pyStripList_eq_self hnospace]
  have hupper : pyUpper (String.mk ['P', 'C', g, d1, d2, d3])
      = String.mk ['P', 'C', g, d1, d2, d3] := by
    unfold pyUpper
    simp only [List.map_cons, List.map_nil, chUp_digit hg, chUp_digit h1,
      chUp_digit h2, chUp_digit h3]
    rfl
  have hsearch : reSearch MODULE_CLASS_RE (String.mk ['P', 'C', g, d1, d2, d3])
      = some [(4, ""), (3, String.mk [d1, d2, d3]), (1, String.mk [g])] := by
    unfold reSearch
    exact search_at_start (mc_match_nosep g d1 d2 d3 hg h1 h2 h3)
  unfold parse_module_class
  rw [hstrip, hupper]
  dsimp only
  rw [hsearch]
  dsimp only
  rw [getCap_one, getCap_three, getCap_four]
  dsimp only [Option.getD_some]
  rfl

/-- C8 counterexample: without the separator, the greedy generation
group absorbs the extra digits — `decode("PC312800")` yields no memory
type and speed 800, while `decode("PC3-12800")` yields DDR3 at 1600, so
the claimed separator-insensitivity fails for this 5-digit rating. -/
theorem C8_counterexample :
    parse_module_class "PC312800" = (none, some 800, none)
    ∧ parse_module_class "PC3-12800" = (some "DDR3", some 1600, none)
    ∧ ((none, some 800, none) :
        Option String × Option Int × Option Bool)
      ≠ (some "DDR3", some 1600, none) := by
  refine ⟨by decide, by decide, by decide⟩

/-- C8 amended: the separator is optional only for three-digit ratings —
for every generation digit g and every 3-digit rating,
`decode("PC" ++ g ++ r)` equals `decode("PC" ++ g ++ "-" ++ r)`; with a
longer rating the greedy generation group absorbs all but the last three
digits, so the two decodes differ (see the counterexample). -/
theorem C8_separator_amended (g d1 d2 d3 : Char) (hg : g.isDigit = true)
    (h1 : d1.isDigit = true) (h2 : d2.isDigit = true)
    (h3 : d3.isDigit = true) :
    parse_module_class ("PC" ++ String.mk [g] ++ String.mk [d1, d2, d3])
      = parse_module_class
          ("PC" ++ String.mk [g] ++ "-" ++ String.mk [d1, d2, d3]) := by
  have hds : ∀ c ∈ [d1, d2, d3], c.isDigit = true := by
    intro c hc
    simp only [List.mem_cons] at hc
    rcases hc with rfl | rfl | rfl | hc
    · exact h1
    · exact h2
    · exact h3
    · simp at hc
  have hL : ("PC" ++ String.mk [g] ++ String.mk [d1, d2, d3])
      = String.mk ['P', 'C', g, d1, d2, d3] := rfl
  have hR : ("PC" ++ String.mk [g] ++ "-" ++ String.mk [d1, d2, d3])
      = String.mk ('P' :: 'C' :: g :: '-' :: ([d1, d2, d3] ++ [])) := rfl
  rw [hL, parse_module_class_nosep3 g d1 d2 d3 hg h1 h2 h3, hR,
    parse_module_class_structured g [d1, d2, d3] [] hg (by simp) (by simp)
      hds (by intro c hc; simp at hc)]
  rfl

/-- C8 witness: the amended theorem at `PC3800` versus `PC3-800`. -/
theorem C8_witness :
    parse_module_class ("PC" ++ String.mk ['3'] ++ String.mk ['8', '0', '0'])
      = parse_module_class
          ("PC" ++ String.mk ['3'] ++ "-" ++ String.mk ['8', '0', '0']) :=
  C8_separator_amended '3' '8' '0' '0' (by decide) (by decide) (by decide)
    (by decide)

/-! ### Encoder evaluation and the codec round trip -/

/-- `synth_module_class` on `DDR<g>` and a nonzero speed: the generation
is `g` and the bandwidth comes from the reverse table with the rounding
fallback. -/
theorem synth_eval (g : Char) (hg : g.isDigit = true) (s : Int) (hs : s ≠ 0) :
    synth_module_class (some ("DDR" ++ String.mk [g])) (some s)
      = some ("PC" ++ String.mk [g] ++ "-"
          ++ toString (match SPEED_TO_MB.lookup s with
                       | some v => v
                       | none => pyRoundDiv (s * 8) 100 * 100)) := by
  unfold synth_module_class
  have ht1 : truthyOS (some ("DDR" ++ String.mk [g])) = true := by
    have hne : ("DDR" ++ String.mk [g]) ≠ "" := by
      simp [String.ext_iff]
    simp [truthyOS, bne, hne]
  have ht2 : truthyOI (some s) = true := by simp [truthyOI, bne, hs]
  rw [ht1, ht2]
  dsimp only
  rw [if_neg (by simp)]
  dsimp only [Option.getD_some]
  have hm : keepUpperDigit
      (((pyUpper ("DDR" ++ String.mk [g])).data).filter (fun c => c ≠ ' '))
      = ['D', 'D', 'R', g] := by
    have hup : pyUpper ("DDR" ++ String.mk [g])
        = String.mk ['D', 'D', 'R', g] := by
      unfold pyUpper
      have : ("DDR" ++ String.mk [g]).data = ['D', 'D', 'R', g] := rfl
      rw [this]
      simp only [List.map_cons, List.map_nil, chUp_digit hg]
      rfl
    rw [hup]
    have hgs : g ≠ ' ' := ne_of_pred hg (by decide)
    have hgu : (decide ('A' ≤ g) && decide (g ≤ 'Z') || g.isDigit) = true := by
      simp [hg]
    simp [keepUpperDigit, List.filter, hgs, hgu]
  rw [hm]
  rw [if_neg (by
    simp only [List.isPrefixOf, List.length_cons, List.getD]
    simp [hg])]
  rfl

/-- Decoding `PC<g>-<r>` (no suffix): the speed component only. -/
theorem decode_speed_concrete (g : Char) (hg : g.isDigit = true)
    (r : String) (v : Int) (h3 : 3 ≤ r.data.length) (h6 : r.data.length ≤ 6)
    (hds : ∀ c ∈ r.data, c.isDigit = true)
    (hv : (match COMMON_MB_TO_MTS.lookup ((natOfDigits r.data : Nat) : Int) with
           | some w => some w
           | none =>
             if ((natOfDigits r.data : Nat) : Int) < 4000 then
               some ((natOfDigits r.data : Nat) : Int)
             else
               some (max 1 (pyRoundDiv ((natOfDigits r.data : Nat) : Int) 8)))
          = some v) :
    (parse_module_class ("PC" ++ String.mk [g] ++ "-" ++ r)).2.1 = some v := by
  obtain ⟨rl⟩ := r
  have hstruct := parse_module_class_structured g rl [] hg h3 h6 hds
    (by intro c hc; simp at hc)
  rw [List.append_nil] at hstruct
  have hstr : ("PC" ++ String.mk [g] ++ "-" ++ String.mk rl)
      = String.mk ('P' :: 'C' :: g :: '-' :: rl) := rfl
  rw [hstr, hstruct]
  exact hv

/-- One table entry of the round trip: encode then decode restores the
speed. -/
theorem c5_generic (g : Char) (hg : g.isDigit = true) (mb s : Int)
    (hs0 : s ≠ 0) (hmem : SPEED_TO_MB.lookup s = some mb)
    (hforward : COMMON_MB_TO_MTS.lookup mb = some s)
    (hdig : ∀ c ∈ (toString mb).data, c.isDigit = true)
    (hlen3 : 3 ≤ (toString mb).data.length)
    (hlen6 : (toString mb).data.length ≤ 6)
    (hnat : ((natOfDigits (toString mb).data : Nat) : Int) = mb) :
    ∃ cls, synth_module_class (some ("DDR" ++ String.mk [g])) (some s)
        = some cls
      ∧ (parse_module_class cls).2.1 = some s := by
  refine ⟨"PC" ++ String.mk [g] ++ "-" ++ toString mb, ?_, ?_⟩
  · rw [synth_eval g hg s hs0, hmem]
  · apply decode_speed_concrete g hg (toString mb) s hlen3 hlen6 hdig
    rw [hnat, hforward]

/-- C5: for every speed that appears as a table value and every memory
type `DDR<g>` (g a digit), `encode` produces a class string and
`decode(encode(...))` restores exactly that speed; the encoder picks the
first/lowest bandwidth on duplicate speeds (8500 for 1066, 10600 for
1333). -/
theorem C5_codec_round_trip :
    (∀ (g : Char) (s : Int), g.isDigit = true →
      s ∈ COMMON_MB_TO_MTS.map Prod.snd →
      ∃ cls, synth_module_class (some ("DDR" ++ String.mk [g])) (some s)
          = some cls
        ∧ (parse_module_class cls).2.1 = some s)
    ∧ SPEED_TO_MB.lookup 1066 = some 8500
    ∧ SPEED_TO_MB.lookup 1333 = some 10600 := by
  refine ⟨?_, by decide, by decide⟩
  intro g s hg hs
  have hcases : s = 800 ∨ s = 1066 ∨ s = 1333 ∨ s = 1600 ∨ s = 1866
      ∨ s = 2000 ∨ s = 2133 ∨ s = 2250 ∨ s = 2400 ∨ s = 2666 ∨ s = 2800
      ∨ s = 2888 ∨ s = 3000 ∨ s = 3200 ∨ s = 3600 ∨ s = 4000 := by
    simpa [COMMON_MB_TO_MTS] using hs
  rcases hcases with rfl | rfl | rfl | rfl | rfl | rfl | rfl | rfl | rfl
    | rfl | rfl | rfl | rfl | rfl | rfl | rfl
  · exact c5_generic g hg 6400 800 (by decide) (by decide) (by decide)
      (by decide) (by decide) (by decide) (by decide)
  · exact c5_generic g hg 8500 1066 (by decide) (by decide) (by decide)
      (by decide) (by decide) (by decide) (by decide)
  · exact c5_generic g hg 10600 1333 (by decide) (by decide) (by decide)
      (by decide) (by decide) (by decide) (by decide)
  · exact c5_generic g hg 12800 1600 (by decide) (by decide) (by decide)
      (by decide) (by decide) (by decide) (by decide)
  · exact c5_generic g hg 14900 1866 (by decide) (by decide) (by decide)
      (by decide) (by decide) (by decide) (by decide)
  · exact c5_generic g hg 16000 2000 (by decide) (by decide) (by decide)
      (by decide) (by decide) (by decide) (by decide)
  · exact c5_generic g hg 17000 2133 (by decide) (by decide) (by decide)
      (by decide) (by decide) (by decide) (by decide)
  · exact c5_generic g hg 17900 2250 (by decide) (by decide) (by decide)
      (by decide) (by decide) (by decide) (by decide)
  · exact c5_generic g hg 19200 2400 (by decide) (by decide) (by decide)
      (by decide) (by decide) (by decide) (by decide)
  · exact c5_generic g hg 21300 2666 (by decide) (by decide) (by decide)
      (by decide) (by decide) (by decide) (by decide)
  · exact c5_generic g hg 22400 2800 (by decide) (by decide) (by decide)
      (by decide) (by decide) (by decide) (by decide)
  · exact c5_generic g hg 23000 2888 (by decide) (by decide) (by decide)
      (by decide) (by decide) (by decide) (by decide)
  · exact c5_generic g hg 24000 3000 (by decide) (by decide) (by decide)
      (by decide) (by decide) (by decide) (by decide)
  · exact c5_generic g hg 25600 3200 (by decide) (by decide) (by decide)
      (by decide) (by decide) (by decide) (by decide)
  · exact c5_generic g hg 28800 3600 (by decide) (by decide) (by decide)
      (by decide) (by decide) (by decide) (by decide)
  · exact c5_generic g hg 32000 4000 (by decide) (by decide) (by decide)
      (by decide) (by decide) (by decide) (by decide)

/-- C5 witness: the round trip at DDR3 / 1600. -/
theorem C5_witness :
    ∃ cls, synth_module_class (some ("DDR" ++ String.mk ['3'])) (some 1600)
        = some cls
      ∧ (parse_module_class cls).2.1 = some 1600 :=
  C5_codec_round_trip.1 '3' 1600 (by decide) (by decide)

/-! ### Exact mapping priority (C3) -/

/-- The first pass of `find` sees the same Boolean on every mapping as
`firstExact`: on non-regex mappings `matches` is pattern equality. -/
theorem find_first_pass_eq (rs : String → String → Bool) (k : String) :
    (fun mm : Mapping => !mm.regex && mm.matchesCode rs k)
      = (fun mm : Mapping => !mm.regex && mm.pattern == k) := by
  funext mm
  by_cases hr : mm.regex <;> simp [Mapping.matchesCode, hr]

/-- C3 counterexample: with a stored explicit speed of 0 and module class
`PC3-12800`, classification returns the decoded 1600, not the stored 0 —
the stored explicit value does not win and the backfilled field was not
absent. -/
theorem C3_counterexample :
    c3Mapping.speed_mts = some 0
    ∧ (parse_barcode (fun _ _ => false) [c3Mapping] "K").speed_mts
        = some 1600 := by
  refine ⟨rfl, by decide⟩

/-- C3 amended: when a non-regex mapping whose pattern equals the
(whitespace-free) canonical key exists, `find` returns the first such
mapping — exact matches take priority over every regex mapping — and
classification returns its stored fields, with the decoded module class
backfilling exactly the fields that are absent or Python-falsy (zero or
empty); heuristics are never consulted. -/
theorem C3_exact_mapping_wins (rs : String → String → Bool)
    (mappings : List Mapping) (k : String) (m : Mapping)
    (hstrip : pyStrip k = k) (hfind : firstExact mappings k = some m) :
    findMapping rs mappings k = some m
    ∧ (parse_barcode rs mappings k).size_gb = m.size_gb
    ∧ (parse_barcode rs mappings k).manufacturer = m.manufacturer
    ∧ (parse_barcode rs mappings k).module_class = m.module_class
    ∧ (parse_barcode rs mappings k).mem_type
        = (if truthyOS m.module_class
              && (truthyOS (parse_module_class (m.module_class.getD "")).1
                && !truthyOS m.mem_type)
           then (parse_module_class (m.module_class.getD "")).1
           else m.mem_type)
    ∧ (parse_barcode rs mappings k).speed_mts
        = (if truthyOS m.module_class
              && (truthyOI (parse_module_class (m.module_class.getD "")).2.1
                && !truthyOI m.speed_mts)
           then (parse_module_class (m.module_class.getD "")).2.1
           else m.speed_mts)
    ∧ (parse_barcode rs mappings k).ecc
        = (if truthyOS m.module_class
              && ((parse_module_class (m.module_class.getD "")).2.2.isSome
                && m.ecc.isNone)
           then (parse_module_class (m.module_class.getD "")).2.2
           else m.ecc) := by
  have hf : findMapping rs mappings k = some m := by
    unfold findMapping
    rw [find_first_pass_eq rs k]
    unfold firstExact at hfind
    rw [hfind]
  refine ⟨hf, ?_⟩
  unfold parse_barcode
  rw [hstrip]
  dsimp only
  rw [hf]
  by_cases hmc : truthyOS m.module_class = true
  · simp [hmc]
  · simp [hmc]

/-- C3 witness: the amended theorem at a store that lists a matching
regex mapping before the exact mapping, with a regex engine that matches
everything — the exact mapping still wins. -/
theorem C3_witness :
    findMapping (fun _ _ => true) [c3RegexMapping, c3ExactMapping] "K"
        = some c3ExactMapping
    ∧ (parse_barcode (fun _ _ => true) [c3RegexMapping, c3ExactMapping]
        "K").size_gb = some 8 := by
  have h := C3_exact_mapping_wins (fun _ _ => true)
    [c3RegexMapping, c3ExactMapping] "K" c3ExactMapping (by decide) (by decide)
  exact ⟨h.1, h.2.1⟩

/-! ### Association-list and version-registry lemmas -/

/-- Lookup distributes over append (first list wins). -/
theorem lookup_append (d l : List (String × α)) (k2 : String) :
    (d ++ l).lookup k2
      = match d.lookup k2 with
        | some w => some w
        | none => l.lookup k2 := by
  induction d with
  | nil => rfl
  | cons p t ih =>
    obtain ⟨k1, v1⟩ := p
    simp only [List.cons_append, List.lookup]
    cases k2 == k1 with
    | true => rfl
    | false => exact ih

/-- The in-place update of `dictSet` is invisible to other keys. -/
theorem lookup_map_set_ne {d : List (String × α)} {k k2 : String} {v : α}
    (h : k2 ≠ k) :
    (d.map (fun p => if p.1 = k then (k, v) else p)).lookup k2
      = d.lookup k2 := by
  induction d with
  | nil => rfl
  | cons p t ih =>
    obtain ⟨k1, v1⟩ := p
    by_cases hk1 : k1 = k
    · subst hk1
      have hhead : (if (k1, v1).1 = k1 then (k1, v) else (k1, v1))
          = (k1, v) := by simp
      rw [List.map_cons, hhead]
      simp only [List.lookup, show (k2 == k1) = false from by simpa using h]
      exact ih
    · have hhead : (if (k1, v1).1 = k then (k, v) else (k1, v1))
          = (k1, v1) := by simp [hk1]
      rw [List.map_cons, hhead]
      simp only [List.lookup]
      cases k2 == k1 with
      | true => rfl
      | false => exact ih

/-- The in-place update of `dictSet` rebinds the key. -/
theorem lookup_map_set_self {d : List (String × α)} {k : String} {v : α}
    (hex : (d.lookup k).isSome) :
    (d.map (fun p => if p.1 = k then (k, v) else p)).lookup k = some v := by
  induction d with
  | nil => simp [List.lookup] at hex
  | cons p t ih =>
    obtain ⟨k1, v1⟩ := p
    by_cases hk1 : k1 = k
    · subst hk1
      have hhead : (if (k1, v1).1 = k1 then (k1, v) else (k1, v1))
          = (k1, v) := by simp
      rw [List.map_cons, hhead]
      simp [List.lookup]
    · have hne : (k == k1) = false := by
        simpa using fun e => hk1 e.symm
      have hhead : (if (k1, v1).1 = k then (k, v) else (k1, v1))
          = (k1, v1) := by simp [hk1]
      rw [List.map_cons, hhead]
      simp only [List.lookup, hne]
      apply ih
      simpa [List.lookup, hne] using hex

/-- `dictSet` binds its key. -/
theorem lookup_dictSet_self {d : List (String × α)} {k : String} {v : α} :
    (dictSet d k v).lookup k = some v := by
  unfold dictSet
  by_cases hex : (d.lookup k).isSome
  · rw [if_pos hex]
    exact lookup_map_set_self hex
  · rw [if_neg hex]
    rw [lookup_append]
    cases hd : d.lookup k with
    | some w => exact absurd (by simp [hd]) hex
    | none => simp [List.lookup]

/-- `dictSet` leaves other keys alone. -/
theorem lookup_dictSet_ne {d : List (String × α)} {k k2 : String} {v : α}
    (h : k2 ≠ k) : (dictSet d k v).lookup k2 = d.lookup k2 := by
  unfold dictSet
  by_cases hex : (d.lookup k).isSome
  · rw [if_pos hex]
    exact lookup_map_set_ne h
  · rw [if_neg hex]
    rw [lookup_append]
    cases hd : d.lookup k2 with
    | some w => rfl
    | none => simp [List.lookup, show (k2 == k) = false from by simpa using h]

/-- Every bound version is at most the registry maximum. -/
theorem lookup_le_maxVersion {d : List (String × Nat)} {k : String} {v : Nat}
    (h : d.lookup k = some v) : v ≤ maxVersion d := by
  induction d with
  | nil => simp [List.lookup] at h
  | cons p t ih =>
    obtain ⟨k1, v1⟩ := p
    simp only [List.lookup] at h
    have hmax : maxVersion ((k1, v1) :: t) = max v1 (maxVersion t) := rfl
    cases hb : (k == k1) with
    | true =>
      rw [hb] at h
      have : v1 = v := by simpa using h
      subst this
      rw [hmax]
      exact Nat.le_max_left _ _
    | false =>
      rw [hb] at h
      rw [hmax]
      exact le_trans (ih h) (Nat.le_max_right _ _)

/-- Appending a fresh binding pushes the maximum up to it. -/
theorem maxVersion_dictSet_fresh {d : List (String × Nat)} {k : String}
    {v : Nat} (h : (d.lookup k).isSome = false) :
    maxVersion (dictSet d k v) = max (maxVersion d) v := by
  unfold dictSet
  rw [if_neg (by simp [h])]
  induction d with
  | nil => simp [maxVersion]
  | cons p t ih =>
    have hstep : maxVersion ((p :: t) ++ [(k, v)])
        = max p.2 (maxVersion (t ++ [(k, v)])) := rfl
    have hstep2 : maxVersion (p :: t) = max p.2 (maxVersion t) := rfl
    have ht : (t.lookup k).isSome = false := by
      simp only [List.lookup] at h
      cases hb : (k == p.1) with
      | true => rw [hb] at h; simp at h
      | false => rw [hb] at h; exact h
    rw [hstep, hstep2, ih ht, Nat.max_assoc]

/-- One rebuild step over a result whose key already has a version. -/
theorem rebuildLoop_cons_some {r : ScanResult} {rest : List ScanResult}
    {vs : List (String × Nat)} {nv : Nat} {cs : List (String × Nat)}
    {ms : List (String × VariantMeta)} {acc : List ScanResult} {w0 : Nat}
    (hb : vs.lookup r.barcode = some w0) :
    rebuildLoop (r :: rest) vs nv cs ms acc
      = rebuildLoop rest vs nv
          (dictSet cs r.barcode ((cs.lookup r.barcode).getD 0 + 1))
          (dictSet ms r.barcode (metaOfResult r))
          (acc ++ [{ r with version := w0 }]) := by
  simp only [rebuildLoop, hb, Option.getD_some]

/-- One rebuild step over a result whose key is unregistered: it
receives `nv` and the counter advances. -/
theorem rebuildLoop_cons_none {r : ScanResult} {rest : List ScanResult}
    {vs : List (String × Nat)} {nv : Nat} {cs : List (String × Nat)}
    {ms : List (String × VariantMeta)} {acc : List ScanResult}
    (hb : vs.lookup r.barcode = none) :
    rebuildLoop (r :: rest) vs nv cs ms acc
      = rebuildLoop rest (dictSet vs r.barcode nv) (nv + 1)
          (dictSet cs r.barcode ((cs.lookup r.barcode).getD 0 + 1))
          (dictSet ms r.barcode (metaOfResult r))
          (acc ++ [{ r with version := nv }]) := by
  simp only [rebuildLoop, hb, lookup_dictSet_self, Option.getD_some]

/-- A fresh key appended at `maxVersion + 1` raises the maximum to it. -/
theorem maxVersion_fresh_next {vs : List (String × Nat)} {b : String}
    (hb : vs.lookup b = none) :
    maxVersion (dictSet vs b (maxVersion vs + 1)) = maxVersion vs + 1 := by
  rw [maxVersion_dictSet_fresh (by simp [hb])]
  exact Nat.max_eq_right (Nat.le_succ _)

/-- The version registry through a rebuild: existing bindings are kept,
the maximum never decreases, and every new binding exceeds the old
maximum. -/
theorem rebuildLoop_versions (rest : List ScanResult) :
    ∀ (vs : List (String × Nat)) (cs : List (String × Nat))
      (ms : List (String × VariantMeta)) (acc : List ScanResult),
      (∀ k v, vs.lookup k = some v →
        (rebuildLoop rest vs (maxVersion vs + 1) cs ms acc).1.lookup k
          = some v)
      ∧ maxVersion vs
          ≤ maxVersion (rebuildLoop rest vs (maxVersion vs + 1) cs ms acc).1
      ∧ (∀ k w,
          (rebuildLoop rest vs (maxVersion vs + 1) cs ms acc).1.lookup k
            = some w →
          vs.lookup k = some w ∨ maxVersion vs < w) := by
  induction rest with
  | nil =>
    intro vs cs ms acc
    exact ⟨fun k v h => h, le_refl _, fun k w h => Or.inl h⟩
  | cons r rest ih =>
    intro vs cs ms acc
    cases hb : vs.lookup r.barcode with
    | some w0 =>
      rw [rebuildLoop_cons_some hb]
      obtain ⟨ih1, ih2, ih3⟩ := ih vs
        (dictSet cs r.barcode ((cs.lookup r.barcode).getD 0 + 1))
        (dictSet ms r.barcode (metaOfResult r))
        (acc ++ [{ r with version := w0 }])
      exact ⟨ih1, ih2, ih3⟩
    | none =>
      have hmax2 := maxVersion_fresh_next hb
      rw [rebuildLoop_cons_none hb]
      obtain ⟨ih1, ih2, ih3⟩ := ih (dictSet vs r.barcode (maxVersion vs + 1))
        (dictSet cs r.barcode ((cs.lookup r.barcode).getD 0 + 1))
        (dictSet ms r.barcode (metaOfResult r))
        (acc ++ [{ r with version := maxVersion vs + 1 }])
      rw [hmax2] at ih1 ih2 ih3
      refine ⟨?_, ?_, ?_⟩
      · intro k v h
        have hkb : k ≠ r.barcode := by
          intro e
          rw [e, hb] at h
          exact Option.noConfusion h
        exact ih1 k v (by rwa [lookup_dictSet_ne hkb])
      · exact le_trans (Nat.le_succ _) ih2
      · intro k w h
        rcases ih3 k w h with h2 | h2
        · by_cases hkb : k = r.barcode
          · subst hkb
            rw [lookup_dictSet_self] at h2
            right
            have : w = maxVersion vs + 1 := by simpa using h2.symm
            omega
          · rw [lookup_dictSet_ne hkb] at h2
            exact Or.inl h2
        · right
          omega

/-- Fresh distinct keys replayed in order receive consecutive versions
starting at one past the prior maximum, in list order. -/
theorem rebuildLoop_assign (rest : List ScanResult) :
    ∀ (vs : List (String × Nat)) (cs : List (String × Nat))
      (ms : List (String × VariantMeta)) (acc : List ScanResult),
      (rest.map (fun r => r.barcode)).Nodup →
      (∀ r ∈ rest, vs.lookup r.barcode = none) →
      ∀ i (h : i < rest.length),
        (rebuildLoop rest vs (maxVersion vs + 1) cs ms acc).1.lookup
          ((rest.get ⟨i, h⟩).barcode) = some (maxVersion vs + 1 + i) := by
  induction rest with
  | nil =>
    intro vs cs ms acc hnd hfresh i h
    exact absurd h (by simp)
  | cons r rest ih =>
    intro vs cs ms acc hnd hfresh i h
    have hb : vs.lookup r.barcode = none :=
      hfresh r (List.mem_cons_self r rest)
    have hmax2 := maxVersion_fresh_next hb
    rw [rebuildLoop_cons_none hb]
    obtain ⟨hnotmem, hnd2⟩ := List.nodup_cons.mp hnd
    have hfresh2 : ∀ x ∈ rest,
        (dictSet vs r.barcode (maxVersion vs + 1)).lookup x.barcode = none := by
      intro x hx
      have hne : x.barcode ≠ r.barcode := by
        intro e
        have hm := List.mem_map_of_mem (fun r => r.barcode) hx
        exact hnotmem (by simpa [e] using hm)
      rw [lookup_dictSet_ne hne]
      exact hfresh x (List.mem_cons_of_mem r hx)
    cases i with
    | zero =>
      have hpres := (rebuildLoop_versions rest
        (dictSet vs r.barcode (maxVersion vs + 1))
        (dictSet cs r.barcode ((cs.lookup r.barcode).getD 0 + 1))
        (dictSet ms r.barcode (metaOfResult r))
        (acc ++ [{ r with version := maxVersion vs + 1 }])).1
      rw [hmax2] at hpres
      have := hpres r.barcode (maxVersion vs + 1) lookup_dictSet_self
      simpa using this
    | succ j =>
      have hj : j < rest.length := by
        simpa using Nat.lt_of_succ_lt_succ h
      have := ih (dictSet vs r.barcode (maxVersion vs + 1))
        (dictSet cs r.barcode ((cs.lookup r.barcode).getD 0 + 1))
        (dictSet ms r.barcode (metaOfResult r))
        (acc ++ [{ r with version := maxVersion vs + 1 }]) hnd2 hfresh2 j hj
      rw [hmax2] at this
      have harith : maxVersion vs + 1 + 1 + j = maxVersion vs + 1 + (j + 1) := by
        omega
      rw [harith] at this
      simpa using this

/-- Every result emitted by the rebuild loop carries exactly the version
the final registry binds to its key. -/
theorem rebuildLoop_consistent (rest : List ScanResult) :
    ∀ (vs : List (String × Nat)) (nv : Nat) (cs : List (String × Nat))
      (ms : List (String × VariantMeta)) (acc : List ScanResult),
      (∀ r ∈ acc, vs.lookup r.barcode = some r.version) →
      ∀ r ∈ (rebuildLoop rest vs nv cs ms acc).2.2.2,
        (rebuildLoop rest vs nv cs ms acc).1.lookup r.barcode
          = some r.version := by
  induction rest with
  | nil =>
    intro vs nv cs ms acc hacc r hr
    exact hacc r hr
  | cons r0 rest ih =>
    intro vs nv cs ms acc hacc r hr
    cases hb : vs.lookup r0.barcode with
    | some w0 =>
      rw [rebuildLoop_cons_some hb] at hr ⊢
      refine ih vs nv _ _ _ ?_ r hr
      intro x hx
      rcases List.mem_append.mp hx with hxa | hxn
      · exact hacc x hxa
      · have hx0 : x = { r0 with version := w0 } := by simpa using hxn
        subst hx0
        exact hb
    | none =>
      rw [rebuildLoop_cons_none hb] at hr ⊢
      refine ih (dictSet vs r0.barcode nv) (nv + 1) _ _ _ ?_ r hr
      intro x hx
      rcases List.mem_append.mp hx with hxa | hxn
      · have hxb : x.barcode ≠ r0.barcode := by
          intro e
          have := hacc x hxa
          rw [e, hb] at this
          exact Option.noConfusion this
        rw [lookup_dictSet_ne hxb]
        exact hacc x hxa
      · have hx0 : x = { r0 with version := nv } := by simpa using hxn
        subst hx0
        exact lookup_dictSet_self

/-- When every key is already registered, the rebuild loop leaves the
registry untouched. -/
theorem rebuildLoop_all_present (rest : List ScanResult) :
    ∀ (vs : List (String × Nat)) (nv : Nat) (cs : List (String × Nat))
      (ms : List (String × VariantMeta)) (acc : List ScanResult),
      (∀ r ∈ rest, (vs.lookup r.barcode).isSome) →
      (rebuildLoop rest vs nv cs ms acc).1 = vs := by
  induction rest with
  | nil => intro vs nv cs ms acc _; rfl
  | cons r rest ih =>
    intro vs nv cs ms acc hall
    cases hb : vs.lookup r.barcode with
    | some w0 =>
      rw [rebuildLoop_cons_some hb]
      exact ih vs nv _ _ _ (fun x hx => hall x (List.mem_cons_of_mem r hx))
    | none =>
      have := hall r (List.mem_cons_self r rest)
      rw [hb] at this
      exact absurd this (by simp)

/-- The rebuild loop preserves the barcode sequence of the results. -/
theorem rebuildLoop_barcodes (rest : List ScanResult) :
    ∀ (vs : List (String × Nat)) (nv : Nat) (cs : List (String × Nat))
      (ms : List (String × VariantMeta)) (acc : List ScanResult),
      (rebuildLoop rest vs nv cs ms acc).2.2.2.map (fun r => r.barcode)
        = acc.map (fun r => r.barcode) ++ rest.map (fun r => r.barcode) := by
  induction rest with
  | nil => intro vs nv cs ms acc; simp [rebuildLoop]
  | cons r rest ih =>
    intro vs nv cs ms acc
    cases hb : vs.lookup r.barcode with
    | some w0 =>
      rw [rebuildLoop_cons_some hb, ih]
      simp
    | none =>
      rw [rebuildLoop_cons_none hb, ih]
      simp

/-- The recomputed counts depend only on the barcode sequence of the
replayed results (and the starting counts). -/
theorem rebuildLoop_counts_congr (rest1 : List ScanResult) :
    ∀ (rest2 : List ScanResult) (vs1 vs2 : List (String × Nat))
      (nv1 nv2 : Nat) (cs : List (String × Nat))
      (ms1 ms2 : List (String × VariantMeta)) (acc1 acc2 : List ScanResult),
      rest1.map (fun r => r.barcode) = rest2.map (fun r => r.barcode) →
      (rebuildLoop rest1 vs1 nv1 cs ms1 acc1).2.1
        = (rebuildLoop rest2 vs2 nv2 cs ms2 acc2).2.1 := by
  induction rest1 with
  | nil =>
    intro rest2 vs1 vs2 nv1 nv2 cs ms1 ms2 acc1 acc2 hmap
    cases rest2 with
    | nil => rfl
    | cons r2 t2 => simp at hmap
  | cons r1 t1 ih =>
    intro rest2 vs1 vs2 nv1 nv2 cs ms1 ms2 acc1 acc2 hmap
    cases rest2 with
    | nil => simp at hmap
    | cons r2 t2 =>
      simp only [List.map_cons, List.cons.injEq] at hmap
      obtain ⟨hbeq, hmap2⟩ := hmap
      have step1 : ∀ (out : List (String × Nat) × Nat),
          True := fun _ => trivial
      cases hb1 : vs1.lookup r1.barcode with
      | some w1 =>
        cases hb2 : vs2.lookup r2.barcode with
        | some w2 =>
          rw [rebuildLoop_cons_some hb1, rebuildLoop_cons_some hb2, hbeq]
          exact ih t2 _ _ _ _ _ _ _ _ _ hmap2
        | none =>
          rw [rebuildLoop_cons_some hb1, rebuildLoop_cons_none hb2, hbeq]
          exact ih t2 _ _ _ _ _ _ _ _ _ hmap2
      | none =>
        cases hb2 : vs2.lookup r2.barcode with
        | some w2 =>
          rw [rebuildLoop_cons_none hb1, rebuildLoop_cons_some hb2, hbeq]
          exact ih t2 _ _ _ _ _ _ _ _ _ hmap2
        | none =>
          rw [rebuildLoop_cons_none hb1, rebuildLoop_cons_none hb2, hbeq]
          exact ih t2 _ _ _ _ _ _ _ _ _ hmap2

/-- The rebuilt registry depends only on the barcode sequence of the
replayed results (and the starting registry and counter). -/
theorem rebuildLoop_versions_congr (rest1 : List ScanResult) :
    ∀ (rest2 : List ScanResult) (vs : List (String × Nat)) (nv : Nat)
      (cs1 cs2 : List (String × Nat)) (ms1 ms2 : List (String × VariantMeta))
      (acc1 acc2 : List ScanResult),
      rest1.map (fun r => r.barcode) = rest2.map (fun r => r.barcode) →
      (rebuildLoop rest1 vs nv cs1 ms1 acc1).1
        = (rebuildLoop rest2 vs nv cs2 ms2 acc2).1 := by
  induction rest1 with
  | nil =>
    intro rest2 vs nv cs1 cs2 ms1 ms2 acc1 acc2 hmap
    cases rest2 with
    | nil => rfl
    | cons r2 t2 => simp at hmap
  | cons r1 t1 ih =>
    intro rest2 vs nv cs1 cs2 ms1 ms2 acc1 acc2 hmap
    cases rest2 with
    | nil => simp at hmap
    | cons r2 t2 =>
      simp only [List.map_cons, List.cons.injEq] at hmap
      obtain ⟨hbeq, hmap2⟩ := hmap
      cases hb1 : vs.lookup r1.barcode with
      | some w1 =>
        rw [rebuildLoop_cons_some hb1,
          rebuildLoop_cons_some (show vs.lookup r2.barcode = some w1 from
            hbeq ▸ hb1)]
        exact ih t2 _ _ _ _ _ _ _ _ hmap2
      | none =>
        rw [rebuildLoop_cons_none hb1,
          rebuildLoop_cons_none (show vs.lookup r2.barcode = none from
            hbeq ▸ hb1), hbeq]
        exact ih t2 _ _ _ _ _ _ _ _ hmap2

/-- The loaded results carry exactly the ledger's stripped nonempty
barcodes, in file order. -/
theorem load_results_file_barcodes (rs : String → String → Bool)
    (mappings : List Mapping) (ledger : List LedgerEntry) :
    (load_results_file rs mappings ledger).map (fun r => r.barcode)
      = ledgerKeys ledger := by
  induction ledger with
  | nil => rfl
  | cons e t ih =>
    by_cases hb : pyStrip e.barcode = ""
    · simp only [load_results_file, ledgerKeys, List.filterMap_cons]
      rw [if_pos hb, if_pos hb]
      exact ih
    · simp only [load_results_file, ledgerKeys, List.filterMap_cons]
      rw [if_neg hb, if_neg hb]
      simp only [List.map_cons]
      rw [ih]
      rfl

/-! ### Per-operation version-registry lemmas -/

/-- `add_result` on the version registry: confirm an existing binding or
append `max + 1`. -/
theorem add_result_versions (s : AppState) (k : String) (size speed : Int)
    (mtype : String) (mc : Option String) (ecc : Option Bool)
    (mfr ts : String) :
    (add_result s k size speed mtype mc ecc mfr ts).versions
      = match s.versions.lookup k with
        | some _ => s.versions
        | none => dictSet s.versions k (maxVersion s.versions + 1) := by
  unfold add_result
  cases h : s.versions.lookup k <;> simp [h]

/-- `add_result` never disturbs an existing version binding. -/
theorem add_result_preserve {s : AppState} {k2 : String} {v : Nat}
    (k : String) (size speed : Int) (mtype : String) (mc : Option String)
    (ecc : Option Bool) (mfr ts : String)
    (h : s.versions.lookup k2 = some v) :
    (add_result s k size speed mtype mc ecc mfr ts).versions.lookup k2
      = some v := by
  rw [add_result_versions]
  cases hk : s.versions.lookup k with
  | some w => exact h
  | none =>
    have hne : k2 ≠ k := by
      intro e
      rw [e, hk] at h
      exact Option.noConfusion h
    rw [lookup_dictSet_ne hne]
    exact h

/-- Every operation preserves existing bindings, never lowers the
maximum, and hands out only versions above the old maximum. -/
theorem applyOp_versions (s : AppState) (op : AppOp) :
    (∀ k v, s.versions.lookup k = some v →
      (applyOp s op).versions.lookup k = some v)
    ∧ maxVersion s.versions ≤ maxVersion (applyOp s op).versions
    ∧ (∀ k w, (applyOp s op).versions.lookup k = some w →
        s.versions.lookup k = some w ∨ maxVersion s.versions < w) := by
  cases op with
  | scan key size speed mtype mc ecc mfr ts =>
    simp only [applyOp]
    rw [show (add_result s key size speed mtype mc ecc mfr ts).versions
        = _ from add_result_versions s key size speed mtype mc ecc mfr ts]
    cases hk : s.versions.lookup key with
    | some w0 =>
      exact ⟨fun k v h => h, le_refl _, fun k w h => Or.inl h⟩
    | none =>
      refine ⟨?_, ?_, ?_⟩
      · intro k v h
        have hne : k ≠ key := by
          intro e
          rw [e, hk] at h
          exact Option.noConfusion h
        rw [lookup_dictSet_ne hne]
        exact h
      · rw [maxVersion_fresh_next hk]
        omega
      · intro k w h
        by_cases hkk : k = key
        · subst hkk
          rw [lookup_dictSet_self] at h
          have : w = maxVersion s.versions + 1 := by simpa using h.symm
          omega
        · rw [lookup_dictSet_ne hkk] at h
          exact Or.inl h
  | removeScan item_id =>
    simp only [applyOp, remove_result, rebuild]
    exact rebuildLoop_versions
      (s.results.filter (fun r => r.id ≠ item_id)) s.versions [] [] []
  | clearAll =>
    simp only [applyOp, clear_results_and_counts]
    exact ⟨fun k v h => h, le_refl _, fun k w h => Or.inl h⟩

/-- Existing bindings survive any sequence of operations. -/
theorem applyOps_preserve (ops : List AppOp) :
    ∀ (s : AppState) (k : String) (v : Nat),
      s.versions.lookup k = some v →
      (applyOps s ops).versions.lookup k = some v := by
  induction ops with
  | nil => intro s k v h; exact h
  | cons op t ih =>
    intro s k v h
    exact ih (applyOp s op) k v ((applyOp_versions s op).1 k v h)

/-- Through any sequence of operations, a key unbound at the start
either stays unbound or receives a version strictly above `v`, whenever
`v` is at most the starting maximum. -/
theorem applyOps_no_reuse (ops : List AppOp) :
    ∀ (s : AppState) (k2 : String) (v : Nat),
      (s.versions.lookup k2 = none
        ∨ ∃ w, s.versions.lookup k2 = some w ∧ v < w) →
      v ≤ maxVersion s.versions →
      ((applyOps s ops).versions.lookup k2 = none
        ∨ ∃ w, (applyOps s ops).versions.lookup k2 = some w ∧ v < w) := by
  induction ops with
  | nil => intro s k2 v hinv _; exact hinv
  | cons op t ih =>
    intro s k2 v hinv hmax
    obtain ⟨hpres, hmono, horigin⟩ := applyOp_versions s op
    apply ih (applyOp s op) k2 v ?_ (le_trans hmax hmono)
    rcases hinv with hnone | ⟨w, hw, hvw⟩
    · cases hs2 : (applyOp s op).versions.lookup k2 with
      | none => exact Or.inl rfl
      | some w =>
        rcases horigin k2 w hs2 with h2 | h2
        · rw [hnone] at h2
          exact Option.noConfusion h2
        · exact Or.inr ⟨w, rfl, by omega⟩
    · exact Or.inr ⟨w, hpres k2 w hw, hvw⟩

/-- The version assigned by `scanAll` to each fresh distinct key. -/
theorem scanAll_preserve (entries : List ScanInput) :
    ∀ (s : AppState) (k : String) (v : Nat),
      s.versions.lookup k = some v →
      (scanAll s entries).versions.lookup k = some v := by
  induction entries with
  | nil => intro s k v h; exact h
  | cons e t ih =>
    intro s k v h
    exact ih _ k v (add_result_preserve e.key e.size_gb e.speed_mts
      e.mem_type e.module_class e.ecc e.manufacturer e.timestamp h)

/-- Fresh distinct keys scanned in order get consecutive versions from
one past the prior maximum. -/
theorem scanAll_assign (entries : List ScanInput) :
    ∀ (s : AppState),
      (entries.map ScanInput.key).Nodup →
      (∀ e ∈ entries, s.versions.lookup e.key = none) →
      ∀ i (h : i < entries.length),
        (scanAll s entries).versions.lookup (entries.get ⟨i, h⟩).key
          = some (maxVersion s.versions + 1 + i) := by
  induction entries with
  | nil =>
    intro s hnd hfresh i h
    exact absurd h (by simp)
  | cons e t ih =>
    intro s hnd hfresh i h
    have hb : s.versions.lookup e.key = none :=
      hfresh e (List.mem_cons_self e t)
    obtain ⟨hnotmem, hnd2⟩ := List.nodup_cons.mp hnd
    have hv2 : (add_result s e.key e.size_gb e.speed_mts e.mem_type
        e.module_class e.ecc e.manufacturer e.timestamp).versions
        = dictSet s.versions e.key (maxVersion s.versions + 1) := by
      rw [add_result_versions, hb]
    have hmax2 : maxVersion (add_result s e.key e.size_gb e.speed_mts
        e.mem_type e.module_class e.ecc e.manufacturer e.timestamp).versions
        = maxVersion s.versions + 1 := by
      rw [hv2]
      exact maxVersion_fresh_next hb
    cases i with
    | zero =>
      simp only [scanAll, List.get]
      apply scanAll_preserve t
      rw [hv2]
      simpa using lookup_dictSet_self
    | succ j =>
      have hj : j < t.length := by
        simpa using Nat.lt_of_succ_lt_succ h
      have hfresh2 : ∀ x ∈ t,
          (add_result s e.key e.size_gb e.speed_mts e.mem_type
            e.module_class e.ecc e.manufacturer e.timestamp).versions.lookup
            x.key = none := by
        intro x hx
        have hne : x.key ≠ e.key := by
          intro heq
          have hm := List.mem_map_of_mem ScanInput.key hx
          exact hnotmem (by simpa [heq] using hm)
        rw [hv2, lookup_dictSet_ne hne]
        exact hfresh x (List.mem_cons_of_mem e hx)
      have := ih (add_result s e.key e.size_gb e.speed_mts e.mem_type
        e.module_class e.ecc e.manufacturer e.timestamp) hnd2 hfresh2 j hj
      rw [hmax2] at this
      have harith : maxVersion s.versions + 1 + 1 + j
          = maxVersion s.versions + 1 + (j + 1) := by omega
      rw [harith] at this
      simpa [scanAll] using this

/-- C1: scanning N distinct never-before-seen canonical keys in order
assigns versions `v, v+1, ..., v+N-1` with `v` one past the prior
maximum (1 on an empty registry, whose maximum is 0); once assigned, no
later scan, scan deletion, or clear-all changes a key's version, and a
key's version number is never reassigned to a different key. -/
theorem C1_version_monotonic :
    (∀ (s : AppState) (entries : List ScanInput),
      (entries.map ScanInput.key).Nodup →
      (∀ e ∈ entries, s.versions.lookup e.key = none) →
      ∀ i (h : i < entries.length),
        (scanAll s entries).versions.lookup (entries.get ⟨i, h⟩).key
          = some (maxVersion s.versions + 1 + i))
    ∧ (∀ (s : AppState) (ops : List AppOp) (k : String) (v : Nat),
        s.versions.lookup k = some v →
        (applyOps s ops).versions.lookup k = some v)
    ∧ (∀ (s : AppState) (ops : List AppOp) (k k2 : String) (v : Nat),
        s.versions.lookup k = some v → k2 ≠ k →
        s.versions.lookup k2 = none →
        (applyOps s ops).versions.lookup k2 ≠ some v) := by
  refine ⟨fun s entries => scanAll_assign entries s,
    fun s ops => applyOps_preserve ops s, ?_⟩
  intro s ops k k2 v hk _ hk2 hcontra
  have hinv := applyOps_no_reuse ops s k2 v (Or.inl hk2)
    (lookup_le_maxVersion hk)
  rcases hinv with hnone | ⟨w, hw, hvw⟩
  · rw [hcontra] at hnone
    exact Option.noConfusion hnone
  · rw [hcontra] at hw
    have : v = w := by simpa using hw
    omega

/-- C1 witness: two fresh scans then a deletion and a clear — versions
1 and 2 assigned in order, and key `A`'s version survives. -/
theorem C1_witness :
    (scanAll ⟨[], [], [], [], [], 0⟩
        [⟨"A", 8, 1600, "DDR3", none, none, "Samsung", "t1"⟩,
         ⟨"B", 4, 1333, "DDR3", none, none, "Micron", "t2"⟩]).versions.lookup
        (([⟨"A", 8, 1600, "DDR3", none, none, "Samsung", "t1"⟩,
           ⟨"B", 4, 1333, "DDR3", none, none, "Micron", "t2"⟩] :
            List ScanInput).get ⟨0, by decide⟩).key
      = some 1
    ∧ (applyOps ⟨[], [("A", 1), ("B", 2)], [], [], [], 0⟩
        [AppOp.removeScan 1, AppOp.clearAll]).versions.lookup "A" = some 1
    ∧ (applyOps ⟨[], [("A", 1), ("B", 2)], [], [], [], 0⟩
        [AppOp.clearAll]).versions.lookup "C" ≠ some 1 := by
  refine ⟨?_, ?_, ?_⟩
  · have h := C1_version_monotonic.1 ⟨[], [], [], [], [], 0⟩
      [⟨"A", 8, 1600, "DDR3", none, none, "Samsung", "t1"⟩,
       ⟨"B", 4, 1333, "DDR3", none, none, "Micron", "t2"⟩]
      (by decide) (by decide) 0 (by decide)
    simpa using h
  · exact C1_version_monotonic.2.1 ⟨[], [("A", 1), ("B", 2)], [], [], [], 0⟩
      [AppOp.removeScan 1, AppOp.clearAll] "A" 1 (by decide)
  · exact C1_version_monotonic.2.2 ⟨[], [("A", 1), ("B", 2)], [], [], [], 0⟩
      [AppOp.clearAll] "A" "C" 1 (by decide) (by decide) (by decide)

/-- C6 counterexample: a ledger stored out of id order (entry id 2 for
key `B` before entry id 1 for key `A`). The code replays in file order
and assigns `B` version 1 and `A` version 2; replaying in ascending id
order (the claim's reading) would give `A` version 1. -/
theorem C6_counterexample :
    (load_and_rebuild (fun _ _ => false) ⟨[], [], [], [], [], 0⟩
        [⟨2, "t", "B", 0⟩, ⟨1, "t", "A", 0⟩]).versions.lookup "A" = some 2
    ∧ (load_and_rebuild (fun _ _ => false) ⟨[], [], [], [], [], 0⟩
        [⟨2, "t", "B", 0⟩, ⟨1, "t", "A", 0⟩]).versions.lookup "B" = some 1
    ∧ (load_and_rebuild_by_id (fun _ _ => false) ⟨[], [], [], [], [], 0⟩
        [⟨2, "t", "B", 0⟩, ⟨1, "t", "A", 0⟩]).versions.lookup "A"
        = some 1 := by
  refine ⟨by decide, by decide, by decide⟩

/-- C6 amended: replaying the persisted ledger assigns versions to
unregistered keys in *file order* of the entries (each one more than the
current maximum) — this coincides with ascending id order exactly when
the file is stored sorted by id, as the program itself always writes
it — and rebuilding is idempotent: a second rebuild from the same state
yields identical version assignments and identical per-key counts. -/
theorem C6_rebuild_file_order (rs : String → String → Bool) (s : AppState)
    (ledger : List LedgerEntry)
    (hnd : (ledgerKeys ledger).Nodup)
    (hfresh : ∀ k ∈ ledgerKeys ledger, s.versions.lookup k = none) :
    (∀ i (h : i < (ledgerKeys ledger).length),
      (load_and_rebuild rs s ledger).versions.lookup
        ((ledgerKeys ledger).get ⟨i, h⟩)
        = some (maxVersion s.versions + 1 + i))
    ∧ (∀ s2 : AppState,
        (rebuild (rebuild s2)).versions = (rebuild s2).versions
        ∧ (rebuild (rebuild s2)).counts = (rebuild s2).counts) := by
  constructor
  · intro i h
    have hmap := load_results_file_barcodes rs s.mappings ledger
    have hlen : (load_results_file rs s.mappings ledger).length
        = (ledgerKeys ledger).length := by
      rw [← hmap]
      simp
    have hnd2 : ((load_results_file rs s.mappings ledger).map
        (fun r => r.barcode)).Nodup := by
      rw [hmap]
      exact hnd
    have hfresh2 : ∀ r ∈ load_results_file rs s.mappings ledger,
        s.versions.lookup r.barcode = none := by
      intro r hr
      apply hfresh
      rw [← hmap]
      exact List.mem_map_of_mem (fun r => r.barcode) hr
    have hi : i < (load_results_file rs s.mappings ledger).length := by
      omega
    have hassign := rebuildLoop_assign (load_results_file rs s.mappings ledger)
      s.versions [] [] [] hnd2 hfresh2 i hi
    have h1 : ((load_results_file rs s.mappings ledger).map
        (fun r => r.barcode)).get ⟨i, by simpa using hi⟩
        = ((load_results_file rs s.mappings ledger).get ⟨i, hi⟩).barcode :=
      List.get_map (f := fun r : ScanResult => r.barcode)
    have h2 := List.get_of_eq hmap ⟨i, by simpa using hi⟩
    have hkey : ((load_results_file rs s.mappings ledger).get
        ⟨i, hi⟩).barcode = (ledgerKeys ledger).get ⟨i, h⟩ := by
      rw [← h1, h2]
    exact hkey ▸ hassign
  · intro s2
    have hcons := rebuildLoop_consistent s2.results s2.versions
      (maxVersion s2.versions + 1) [] [] [] (by intro r hr; simp at hr)
    have hbar := rebuildLoop_barcodes s2.results s2.versions
      (maxVersion s2.versions + 1) [] [] []
    constructor
    · show (rebuildLoop
          (rebuildLoop s2.results s2.versions
            (maxVersion s2.versions + 1) [] [] []).2.2.2
          (rebuildLoop s2.results s2.versions
            (maxVersion s2.versions + 1) [] [] []).1
          (maxVersion (rebuildLoop s2.results s2.versions
            (maxVersion s2.versions + 1) [] [] []).1 + 1) [] [] []).1
        = (rebuildLoop s2.results s2.versions
            (maxVersion s2.versions + 1) [] [] []).1
      apply rebuildLoop_all_present
      intro r hr
      rw [hcons r hr]
      rfl
    · show (rebuildLoop
          (rebuildLoop s2.results s2.versions
            (maxVersion s2.versions + 1) [] [] []).2.2.2
          (rebuildLoop s2.results s2.versions
            (maxVersion s2.versions + 1) [] [] []).1
          (maxVersion (rebuildLoop s2.results s2.versions
            (maxVersion s2.versions + 1) [] [] []).1 + 1) [] [] []).2.1
        = (rebuildLoop s2.results s2.versions
            (maxVersion s2.versions + 1) [] [] []).2.1
      apply rebuildLoop_counts_congr
      rw [hbar]
      simp

/-- C6 witness: the amended theorem on an in-order two-entry ledger —
the second file entry's key `B` receives version 2. -/
theorem C6_witness :
    (load_and_rebuild (fun _ _ => false) ⟨[], [], [], [], [], 0⟩
        [⟨1, "t", "A", 0⟩, ⟨2, "t", "B", 0⟩]).versions.lookup
        ((ledgerKeys [⟨1, "t", "A", 0⟩, ⟨2, "t", "B", 0⟩]).get ⟨1, by decide⟩)
      = some 2 := by
  have h := (C6_rebuild_file_order (fun _ _ => false) ⟨[], [], [], [], [], 0⟩
    [⟨1, "t", "A", 0⟩, ⟨2, "t", "B", 0⟩] (by decide) (by decide)).1 1
    (by decide)
  simpa using h

/-- The ledger's key sequence is unchanged by editing version fields. -/
theorem ledgerKeys_edit (ledger : List LedgerEntry) (f : LedgerEntry → Nat) :
    ledgerKeys (ledger.map (fun e => { e with version := f e }))
      = ledgerKeys ledger := by
  unfold ledgerKeys
  rw [List.filterMap_map]
  rfl

/-- C10: after a load-and-rebuild, after every scan addition, after a
deletion, and after a rebuild, every in-memory scan result's version
field equals the registry's version for its key; and the version values
stored in the ledger file are ignored on load — editing them cannot
change any variant's version. -/
theorem C10_versions_consistent :
    (∀ (rs : String → String → Bool) (s : AppState)
        (ledger : List LedgerEntry),
      ∀ r ∈ (load_and_rebuild rs s ledger).results,
        (load_and_rebuild rs s ledger).versions.lookup r.barcode
          = some r.version)
    ∧ (∀ (s : AppState) (k : String) (size speed : Int) (mtype : String)
        (mc : Option String) (ecc : Option Bool) (mfr ts : String),
        (∀ r ∈ s.results, s.versions.lookup r.barcode = some r.version) →
        ∀ r ∈ (add_result s k size speed mtype mc ecc mfr ts).results,
          (add_result s k size speed mtype mc ecc mfr ts).versions.lookup
            r.barcode = some r.version)
    ∧ (∀ (s : AppState) (item_id : Nat),
        ∀ r ∈ (remove_result s item_id).results,
          (remove_result s item_id).versions.lookup r.barcode
            = some r.version)
    ∧ (∀ s : AppState,
        ∀ r ∈ (rebuild s).results,
          (rebuild s).versions.lookup r.barcode = some r.version)
    ∧ (∀ (rs : String → String → Bool) (s : AppState)
        (ledger : List LedgerEntry) (f : LedgerEntry → Nat),
        (load_and_rebuild rs s
            (ledger.map (fun e => { e with version := f e }))).versions
          = (load_and_rebuild rs s ledger).versions) := by
  refine ⟨?_, ?_, ?_, ?_, ?_⟩
  · intro rs s ledger
    exact rebuildLoop_consistent _ _ _ _ _ _ (by intro r hr; simp at hr)
  · intro s k size speed mtype mc ecc mfr ts hcons r hr
    unfold add_result at hr ⊢
    cases hk : s.versions.lookup k with
    | some v =>
      rw [hk] at hr
      dsimp only at hr ⊢
      rcases List.mem_append.mp hr with hro | hrn
      · exact hcons r hro
      · have hr0 : r = ⟨s.seq + 1, ts, k, size, speed, mtype, mc, ecc,
            mfr, v⟩ := by simpa using hrn
        subst hr0
        exact hk
    | none =>
      rw [hk] at hr
      dsimp only at hr ⊢
      rcases List.mem_append.mp hr with hro | hrn
      · have hro2 := hcons r hro
        have hne : r.barcode ≠ k := by
          intro e
          rw [e, hk] at hro2
          exact Option.noConfusion hro2
        rw [lookup_dictSet_ne hne]
        exact hro2
      · have hr0 : r = ⟨s.seq + 1, ts, k, size, speed, mtype, mc, ecc,
            mfr, maxVersion s.versions + 1⟩ := by simpa using hrn
        subst hr0
        exact lookup_dictSet_self
  · intro s item_id
    exact rebuildLoop_consistent _ _ _ _ _ _ (by intro r hr; simp at hr)
  · intro s
    exact rebuildLoop_consistent _ _ _ _ _ _ (by intro r hr; simp at hr)
  · intro rs s ledger f
    unfold load_and_rebuild rebuild
    dsimp only
    apply rebuildLoop_versions_congr
    rw [load_results_file_barcodes, load_results_file_barcodes,
      ledgerKeys_edit]

/-- C10 witness: the invariant after a concrete scan addition on a
consistent state. -/
theorem C10_witness :
    ∀ r ∈ (add_result ⟨[], [("A", 1)],
        [⟨1, "t", "A", 8, 1600, "DDR3", none, none, "Samsung", 1⟩],
        [("A", 1)], [], 1⟩ "B" 4 1333 "DDR3" none none "Micron" "t2").results,
      (add_result ⟨[], [("A", 1)],
        [⟨1, "t", "A", 8, 1600, "DDR3", none, none, "Samsung", 1⟩],
        [("A", 1)], [], 1⟩ "B" 4 1333 "DDR3" none none "Micron"
        "t2").versions.lookup r.barcode = some r.version :=
  C10_versions_consistent.2.1 ⟨[], [("A", 1)],
    [⟨1, "t", "A", 8, 1600, "DDR3", none, none, "Samsung", 1⟩],
    [("A", 1)], [], 1⟩ "B" 4 1333 "DDR3" none none "Micron" "t2"
    (by decide)

end RAMScanner
